import Mathlib

/-!
Verification development for the DeepSeek-V3 decoder-layer core of this
repository (`src/mistralrs-core/src/models/deepseek3.rs`).

Shallow embedding conventions:
* Tensors of token hidden states are lists of rows; a single hidden-state row
  is a function `ℕ → ℚ` (`Vec`).  Per-expert score tensors of shape
  `(n_tokens, n_experts)` are `List (List ℚ)`.
* Machine floats are embedded as exact rationals `ℚ`.
* Fallible tensor operations return `Except Err _`; a Rust `panic!`
  (`unwrap`, `assert!`) is `Err.panicErr`, a `bail!` is `Err.msgErr`, and a
  propagated candle shape/index error is `Err.shapeErr`.
* Tensor helper kernels that live outside `src/` (`ops.rs`: `topk`,
  `bincount`, `nonzero`, `scatter_add`; `layers_masker.rs`: `masked_fill`)
  are modelled from the spec, as documented on each definition.
-/

/-- Error kind of a fallible embedded operation: a Rust panic
(`unwrap`/`assert!`), a `candle_core::bail!` configuration message, or a
propagated candle shape/index error. -/
inductive Err where
  | panicErr
  | msgErr
  | shapeErr
deriving DecidableEq, Repr

instance {ε α : Type} [DecidableEq ε] [DecidableEq α] :
    DecidableEq (Except ε α) := fun a b =>
  match a, b with
  | .ok x, .ok y =>
    if h : x = y then .isTrue (congrArg Except.ok h)
    else .isFalse (fun hc => h (Except.ok.inj hc))
  | .error e, .error f =>
    if h : e = f then .isTrue (congrArg Except.error h)
    else .isFalse (fun hc => h (Except.error.inj hc))
  | .ok _, .error _ => .isFalse (fun hc => Except.noConfusion hc)
  | .error _, .ok _ => .isFalse (fun hc => Except.noConfusion hc)

/-- A hidden-state row (one token's activation vector), embedded as a total
function from coordinate to rational value. -/
def Vec : Type := ℕ → ℚ

instance : Zero Vec := ⟨fun _ => 0⟩

instance : Add Vec := ⟨fun a b i => a i + b i⟩

instance : AddCommMonoid Vec where
  add_assoc a b c := by funext i; exact add_assoc (a i) (b i) (c i)
  zero_add a := by funext i; exact zero_add (a i)
  add_zero a := by funext i; exact add_zero (a i)
  add_comm a b := by funext i; exact add_comm (a i) (b i)
  nsmul := nsmulRec

/-- Scalar multiple of a hidden-state row. -/
def smulQ (c : ℚ) (v : Vec) : Vec := fun i => c * v i

theorem vec_add_apply (a b : Vec) (i : ℕ) : (a + b) i = a i + b i := rfl

theorem vec_zero_apply (i : ℕ) : (0 : Vec) i = 0 := rfl

/-- Pair every entry of a rational row with its index. -/
def enumQ (l : List ℚ) : List (ℕ × ℚ) :=
  (List.range l.length).map (fun i => (i, l.getD i 0))

theorem enumQ_map_fst (l : List ℚ) :
    (enumQ l).map Prod.fst = List.range l.length := by
  have hid : (Prod.fst ∘ fun i => (i, l.getD i 0)) = id := by funext i; rfl
  rw [enumQ, List.map_map, hid, List.map_id]

theorem enumQ_length (l : List ℚ) : (enumQ l).length = l.length := by
  simp [enumQ]

theorem mem_enumQ_fst_lt {l : List ℚ} {p : ℕ × ℚ} (h : p ∈ enumQ l) :
    p.1 < l.length := by
  simp only [enumQ, List.mem_map, List.mem_range] at h
  obtain ⟨i, hi, rfl⟩ := h
  exact hi

theorem mem_enumQ_snd {l : List ℚ} {p : ℕ × ℚ} (h : p ∈ enumQ l) :
    p.2 = l.getD p.1 0 := by
  simp only [enumQ, List.mem_map, List.mem_range] at h
  obtain ⟨i, _, rfl⟩ := h
  rfl

/-- Select a maximal element (earliest index on ties) from a list of
(index, value) pairs, returning it together with the remaining pairs. -/
def pickMax : List (ℕ × ℚ) → Option ((ℕ × ℚ) × List (ℕ × ℚ))
  | [] => none
  | p :: ps =>
    match pickMax ps with
    | none => some (p, [])
    | some (q, rest) => if p.2 < q.2 then some (q, p :: rest) else some (p, ps)

theorem pickMax_eq_none {l : List (ℕ × ℚ)} : pickMax l = none ↔ l = [] := by
  cases l with
  | nil => simp [pickMax]
  | cons p ps =>
    simp only [pickMax]
    cases h : pickMax ps with
    | none => simp
    | some qr =>
      obtain ⟨q, rest⟩ := qr
      by_cases hlt : p.2 < q.2 <;> simp [hlt]

theorem pickMax_perm {l : List (ℕ × ℚ)} {q : ℕ × ℚ} {rest : List (ℕ × ℚ)}
    (h : pickMax l = some (q, rest)) : l.Perm (q :: rest) := by
  induction l generalizing q rest with
  | nil => simp [pickMax] at h
  | cons p ps ih =>
    simp only [pickMax] at h
    split at h
    · next hp =>
      obtain rfl : ps = [] := pickMax_eq_none.mp hp
      simp only [Option.some.injEq, Prod.mk.injEq] at h
      obtain ⟨rfl, rfl⟩ := h
      exact List.Perm.refl _
    · next q' rest' hp =>
      split at h
      · simp only [Option.some.injEq, Prod.mk.injEq] at h
        obtain ⟨rfl, rfl⟩ := h
        exact ((ih hp).cons p).trans (List.Perm.swap _ _ _)
      · simp only [Option.some.injEq, Prod.mk.injEq] at h
        obtain ⟨rfl, rfl⟩ := h
        exact List.Perm.refl _

/-- Take the `k` largest (index, value) pairs, repeatedly extracting a
maximum; `none` when fewer than `k` candidates remain (candle's `topk`
errors when `k` exceeds the dimension). -/
def topkPairs : ℕ → List (ℕ × ℚ) → Option (List (ℕ × ℚ))
  | 0, _ => some []
  | k + 1, cands =>
    match pickMax cands with
    | none => none
    | some (best, rest) => (topkPairs k rest).map (best :: ·)

theorem topkPairs_ok {k : ℕ} {l ps : List (ℕ × ℚ)}
    (h : topkPairs k l = some ps) :
    ps.length = k ∧ (∀ p ∈ ps, p ∈ l) ∧
      ((l.map Prod.fst).Nodup → (ps.map Prod.fst).Nodup) := by
  induction k generalizing l ps with
  | zero =>
    simp only [topkPairs, Option.some.injEq] at h
    subst h
    simp
  | succ k ih =>
    simp only [topkPairs] at h
    split at h
    · simp at h
    · next best rest hp =>
      rw [Option.map_eq_some'] at h
      obtain ⟨ps', ht, h2⟩ := h
      subst h2
      obtain ⟨hlen, hmem, hnd⟩ := ih ht
      have hperm : l.Perm (best :: rest) := pickMax_perm hp
      refine ⟨by simp [hlen], ?_, ?_⟩
      · intro p hpmem
        rcases List.mem_cons.mp hpmem with rfl | hmem'
        · exact hperm.mem_iff.mpr (List.mem_cons_self _ _)
        · exact hperm.mem_iff.mpr (List.mem_cons_of_mem _ (hmem p hmem'))
      · intro hl
        have hbr : ((best :: rest).map Prod.fst).Nodup :=
          (hperm.map Prod.fst).nodup_iff.mp hl
        simp only [List.map_cons, List.nodup_cons] at hbr ⊢
        refine ⟨?_, hnd hbr.2⟩
        intro hcontra
        rcases List.mem_map.mp hcontra with ⟨p, hpmem, hpeq⟩
        exact hbr.1 (hpeq ▸ List.mem_map_of_mem Prod.fst (hmem p hpmem))

/-- Output of `topk`/`topk_unsorted` (`TopKOutput` in `ops.rs`). -/
structure TopKOutput where
  values : List ℚ
  indices : List ℕ
deriving DecidableEq, Repr

/-- Modelled from the spec (the implementation lives in `ops.rs`, outside
`src/`): "Top-k routing: selecting the k highest-scoring experts per token".
Returns the `k` largest entries of the row together with their (pairwise
distinct) positions, largest first, breaking ties towards the smaller
index; errors when `k` exceeds the row length.  The claims never depend on
the order in which the `k` winners are listed, so `topk` and
`topk_unsorted` share this model. -/
def topk (k : ℕ) (row : List ℚ) : Except Err TopKOutput :=
  match topkPairs k (enumQ row) with
  | some ps => .ok ⟨ps.map Prod.snd, ps.map Prod.fst⟩
  | none => .error .shapeErr

theorem topk_ok {k : ℕ} {row : List ℚ} {t : TopKOutput}
    (h : topk k row = .ok t) :
    t.indices.length = k ∧ t.values.length = k ∧ t.indices.Nodup ∧
      ∀ i ∈ t.indices, i < row.length := by
  simp only [topk] at h
  cases hp : topkPairs k (enumQ row) with
  | none => rw [hp] at h; simp at h
  | some ps =>
    rw [hp] at h
    simp only [Except.ok.injEq] at h
    subst h
    obtain ⟨hlen, hmem, hnd⟩ := topkPairs_ok hp
    refine ⟨by simp [hlen], by simp [hlen], ?_, ?_⟩
    · exact hnd (by rw [enumQ_map_fst]; exact List.nodup_range _)
    · intro i hi
      rcases List.mem_map.mp hi with ⟨p, hpmem, rfl⟩
      exact mem_enumQ_fst_lt (hmem p hpmem)

/-- Sequence a fallible per-row operation over a list of rows, stopping at
the first error (the embedding of staged tensor ops applied row by row). -/
def exMap (f : α → Except Err β) : List α → Except Err (List β)
  | [] => .ok []
  | a :: as =>
    match f a, exMap f as with
    | .ok b, .ok bs => .ok (b :: bs)
    | .error e, _ => .error e
    | .ok _, .error e => .error e

theorem exMap_ok_iff {f : α → Except Err β} {l : List α} {ys : List β} :
    exMap f l = .ok ys ↔ List.Forall₂ (fun a b => f a = .ok b) l ys := by
  induction l generalizing ys with
  | nil =>
    constructor
    · intro h
      simp only [exMap, Except.ok.injEq] at h
      subst h
      exact List.Forall₂.nil
    · intro h
      cases h
      rfl
  | cons a as ih =>
    constructor
    · intro h
      simp only [exMap] at h
      cases hfa : f a with
      | error e => rw [hfa] at h; simp at h
      | ok b =>
        rw [hfa] at h
        cases hrest : exMap f as with
        | error e => rw [hrest] at h; simp at h
        | ok bs =>
          rw [hrest] at h
          simp only [Except.ok.injEq] at h
          subst h
          exact List.Forall₂.cons hfa (ih.mp hrest)
    · intro h
      cases h with
      | cons hfa hrest =>
        simp only [exMap, hfa, ih.mpr hrest]

theorem exMap_ok_length {f : α → Except Err β} {l : List α} {ys : List β}
    (h : exMap f l = .ok ys) : ys.length = l.length :=
  (List.Forall₂.length_eq (exMap_ok_iff.mp h)).symm

theorem exMap_ok_mem {f : α → Except Err β} {l : List α} {ys : List β}
    (h : exMap f l = .ok ys) : ∀ b ∈ ys, ∃ a ∈ l, f a = .ok b := by
  have h2 := exMap_ok_iff.mp h
  clear h
  induction h2 with
  | nil => intro b hb; simp at hb
  | cons hfa _ ih =>
    intro b hb
    rcases List.mem_cons.mp hb with rfl | hb'
    · exact ⟨_, List.mem_cons_self _ _, hfa⟩
    · obtain ⟨a, ha, hfa'⟩ := ih b hb'
      exact ⟨a, List.mem_cons_of_mem _ ha, hfa'⟩

theorem exMap_ok_getD {f : α → Except Err β} {l : List α} {ys : List β}
    (h : exMap f l = .ok ys) (t : ℕ) (ht : t < l.length) (da : α) (db : β) :
    f (l.getD t da) = .ok (ys.getD t db) := by
  have h2 := exMap_ok_iff.mp h
  clear h
  induction h2 generalizing t with
  | nil => simp at ht
  | cons hfa hrest ih =>
    cases t with
    | zero => simpa using hfa
    | succ t => exact ih t (Nat.lt_of_succ_lt_succ (by simpa using ht))

theorem exMap_congr_ok {f g : α → Except Err β} {l : List α} {ys : List β}
    (hfg : ∀ a ∈ l, ∀ b, f a = .ok b → g a = .ok b)
    (h : exMap f l = .ok ys) : exMap g l = .ok ys := by
  rw [exMap_ok_iff] at h ⊢
  induction h with
  | nil => exact List.Forall₂.nil
  | cons hfa hrest ih =>
    exact List.Forall₂.cons
      (hfg _ (List.mem_cons_self _ _) _ hfa)
      (ih (fun a ha b hb => hfg a (List.mem_cons_of_mem _ ha) b hb))

/-- Row-level `broadcast_add` of a per-expert bias vector onto one token's
score row (`candle` errors when the shapes disagree). -/
def addBias (row bias : List ℚ) : Except Err (List ℚ) :=
  if row.length = bias.length then .ok (List.zipWith (· + ·) row bias)
  else .error .shapeErr

/-- Row-level `broadcast_mul` of a token's score row by a mask row. -/
def mulMask (row mask : List ℚ) : Except Err (List ℚ) :=
  if row.length = mask.length then .ok (List.zipWith (· * ·) row mask)
  else .error .shapeErr

/-- Modelled from the spec (the implementation lives in `layers_masker.rs`,
outside `src/`): `masked_fill(on, mask, v)` replaces the entries of `on`
whose mask entry is nonzero by `v`, keeping the rest. -/
def maskedFill (base mask : List ℚ) (v : ℚ) : Except Err (List ℚ) :=
  if base.length = mask.length then
    .ok (List.zipWith (fun a m => if m ≠ 0 then v else a) base mask)
  else .error .shapeErr

/-- Row-level reshape `(e) → (n_group, e / n_group)`: split a score row into
`g` contiguous equal-size groups; a candle reshape error unless `g` divides
the length. -/
def chunkExact (g : ℕ) (row : List ℚ) : Except Err (List (List ℚ)) :=
  if g ≠ 0 ∧ g ∣ row.length then
    .ok ((List.range g).map (fun i =>
      ((row.drop (i * (row.length / g))).take (row.length / g))))
  else .error .shapeErr

/-- Modelled from the spec (the implementation is candle's `scatter_add`,
outside `src/`): starting from a zero row, add `1` at each listed index
(`group_mask.scatter_add(&group_idx, &ones, 1)`); errors when an index is
out of bounds for the row. -/
def scatterAddOnes (zeros : List ℚ) (idx : List ℕ) : Except Err (List ℚ) :=
  if idx.all (· < zeros.length) then
    .ok (idx.foldl (fun acc i => acc.set i (acc.getD i 0 + 1)) zeros)
  else .error .shapeErr

/-- Row-level `unsqueeze → expand (n_group, e/n_group) → reshape (e)`:
replicate every group-mask entry `sub` times, in group order. -/
def expandMask (mask : List ℚ) (sub : ℕ) : List ℚ :=
  (mask.map (fun v => List.replicate sub v)).flatten

/-- Row-level `gather` along the expert dimension; errors on an
out-of-bounds index. -/
def gatherRow (row : List ℚ) (idx : List ℕ) : Except Err (List ℚ) :=
  if idx.all (· < row.length) then .ok (idx.map (fun i => row.getD i 0))
  else .error .shapeErr

/-- Row-level `max(D::Minus1)`: maximum of a group slice (errors on an
empty slice, as candle does when reducing a zero-size dimension). -/
def maxDim : List ℚ → Except Err ℚ
  | [] => .error .shapeErr
  | a :: as => .ok (as.foldl max a)

/-- `TopkMethod` from `deepseek3.rs` (lines 41-48). -/
inductive TopkMethod where
  | NoAuxTc
  | Greedy
  | GroupLimitedGreedy
deriving DecidableEq, Repr

/-- `ScoringFunc` from `deepseek3.rs` (lines 50-56). -/
inductive ScoringFunc where
  | Softmax
  | Sigmoid
deriving DecidableEq, Repr

/-- The fields of `DeepSeekV3Config` (lines 58-101) used by the claims:
routing, MoE-layer selection and expert-bank configuration.  The remaining
fields (attention dimensions, vocabulary, dtype and rope settings) never
appear in the claim-relevant control flow and are omitted. -/
structure DeepSeekV3Config where
  n_shared_experts : Option ℕ
  n_routed_experts : Option ℕ
  routed_scaling_factor : ℚ
  topk_method : TopkMethod
  num_experts_per_tok : Option ℕ
  moe_layer_freq : ℕ
  first_k_dense_replace : ℕ
  norm_topk_prob : Bool
  scoring_func : ScoringFunc
  n_group : ℕ
  topk_group : ℕ

/-- `MoeGate` (lines 433-439).  The learned centroid matrix `weight`
together with the elevated-precision matmul and the softmax/sigmoid of
lines 466-474 is embedded as the per-token scoring function `score`
(those stages are real-analytic row-wise maps; every claim about
`MoeGate::forward` quantifies over their output, the score row). -/
structure MoeGate where
  score : Vec → List ℚ
  cfg : DeepSeekV3Config
  top_k : ℕ
  n_routed_experts : ℕ
  e_score_correction_bias : Option (List ℚ)

/-- The `1e-20` denominator guard of line 553. -/
def epsDenom : ℚ := 1 / 10 ^ 20

/-- One token's pass through the top-k selection `match` of
`MoeGate::forward` (lines 477-550), producing `(topk_weight, topk_idx)`
for that token.  Every tensor stage of the source acts independently on
each token row (top-k, scatter, reshape/expand and the broadcast ops all
work along the trailing expert/group dimensions), so the embedding
processes one row at a time; `selectTopk` maps it over the batch.

Branches:
* `Greedy` (lines 478-481): unsorted top-k over the raw scores.
* `NoAuxTc` (lines 482-519): bias-corrected scores for choice, per-group
  top-2 sums, group top-k, scatter-built group mask expanded to expert
  width, mask applied by `broadcast_mul`, top-k over the masked corrected
  scores, weights gathered from the *uncorrected* scores.
* `GroupLimitedGreedy` (lines 520-549): per-group max is computed into
  `group_scores`, but `group_idx` is then taken as
  `scores.topk_unsorted(topk_group)` over the raw per-expert scores, and
  `masked_fill` is applied to `score_mask` itself (both exactly as the
  source lines 526 and 546 are written). -/
def MoeGate.selectRow (g : MoeGate) (row : List ℚ) :
    Except Err (List ℚ × List ℕ) :=
  match g.cfg.topk_method with
  | .Greedy => do
    let t ← topk g.top_k row
    .ok (t.values, t.indices)
  | .NoAuxTc =>
    match g.e_score_correction_bias with
    | none => .error .msgErr
    | some e_score_correction_bias => do
      let scores_for_choice ← addBias row e_score_correction_bias
      let groups ← chunkExact g.cfg.n_group scores_for_choice
      let group_scores ← exMap
        (fun grp => do
          let t ← topk 2 grp
          .ok t.values.sum) groups
      let tg ← topk g.cfg.topk_group group_scores
      let group_idx := tg.indices
      let group_mask ← scatterAddOnes (group_scores.map (fun _ => (0 : ℚ)))
        group_idx
      let score_mask := expandMask group_mask
        (g.n_routed_experts / g.cfg.n_group)
      let tmp_scores ← mulMask scores_for_choice score_mask
      let tk ← topk g.top_k tmp_scores
      let w ← gatherRow row tk.indices
      .ok (w, tk.indices)
  | .GroupLimitedGreedy => do
    let groups ← chunkExact g.cfg.n_group row
    let group_scores ← exMap maxDim groups
    let tg ← topk g.cfg.topk_group row
    let group_idx := tg.indices
    let group_mask ← scatterAddOnes (group_scores.map (fun _ => (0 : ℚ)))
      group_idx
    let score_mask := expandMask group_mask
      (g.n_routed_experts / g.cfg.n_group)
    let tmp_scores ← maskedFill score_mask
      (score_mask.map (fun a => 1 - (if a ≠ 0 then (1 : ℚ) else 0))) 0
    let tk ← topk g.top_k tmp_scores
    .ok (tk.values, tk.indices)

/-- The top-k selection stage of `MoeGate::forward` over the whole
flattened `(n_tokens, n_experts)` score tensor: lines 477-550. -/
def MoeGate.selectTopk (g : MoeGate) (scores : List (List ℚ)) :
    Except Err (List (List ℚ) × List (List ℕ)) := do
  let rows ← exMap g.selectRow scores
  .ok (rows.map Prod.fst, rows.map Prod.snd)

/-- The re-normalization of lines 552-555: divide each selected weight by
the per-token sum plus `1e-20`. -/
def normRows (w : List (List ℚ)) : List (List ℚ) :=
  w.map (fun row =>
    let denmoninator := row.sum + epsDenom
    row.map (fun x => x / denmoninator))

/-- `MoeGate::forward` (lines 464-561) from the computed score tensor
onward: top-k selection, optional re-normalization when
`top_k > 1 && norm_topk_prob` (lines 552-555), then the unconditional
multiplication by `routed_scaling_factor` (line 558).  Returns
`(topk_idx, topk_weight)` exactly as the source does. -/
def MoeGate.forwardScores (g : MoeGate) (scores : List (List ℚ)) :
    Except Err (List (List ℕ) × List (List ℚ)) := do
  let sel ← g.selectTopk scores
  let topk_weight := sel.1
  let topk_idx := sel.2
  let topk_weight :=
    if 1 < g.top_k ∧ g.cfg.norm_topk_prob then normRows topk_weight
    else topk_weight
  let topk_weight := topk_weight.map
    (fun row => row.map (fun x => x * g.cfg.routed_scaling_factor))
  .ok (topk_idx, topk_weight)

/-- `MoeGate::forward` (lines 464-561) on a batch of token hidden rows:
score every token (the matmul + softmax/sigmoid stage held in `score`),
then run the selection/normalization pipeline. -/
def MoeGate.forward (g : MoeGate) (xs : List Vec) :
    Except Err (List (List ℕ) × List (List ℚ)) :=
  g.forwardScores (xs.map g.score)

theorem exBind_ok_reduce {α β : Type} (a : α) (f : α → Except Err β) :
    (Except.ok a >>= f) = f a := rfl

theorem exBind_ok_inv {α β : Type} {x : Except Err α} {f : α → Except Err β}
    {b : β} (h : (x >>= f) = .ok b) : ∃ a, x = .ok a ∧ f a = .ok b := by
  cases x with
  | ok a => exact ⟨a, rfl, h⟩
  | error e =>
    rw [show ((Except.error e : Except Err α) >>= f) = .error e from rfl] at h
    exact Except.noConfusion h

theorem sum_map_div (l : List ℚ) (d : ℚ) :
    (l.map (fun x => x / d)).sum = l.sum / d := by
  induction l with
  | nil => simp
  | cons a as ih => simp [ih, add_div]

theorem sum_map_mul (l : List ℚ) (c : ℚ) :
    (l.map (fun x => x * c)).sum = l.sum * c := by
  induction l with
  | nil => simp
  | cons a as ih => simp [ih, add_mul]

theorem getD_map_fix {α β : Type} (f : α → β) (l : List α) (i : ℕ) (da : α)
    (db : β) (hd : f da = db) : (l.map f).getD i db = f (l.getD i da) := by
  induction l generalizing i with
  | nil => simpa using hd.symm
  | cons a as ih =>
    cases i with
    | zero => rfl
    | succ n => simpa using ih n

/-- Claim C1 (amended): after the top-k selection stage, when
`top_k > 1 && norm_topk_prob` the selected weights are renormalized by the
per-token sum plus `1e-20` and then every weight is multiplied by
`routed_scaling_factor`; hence the per-token sum of the returned weights
equals `routed_scaling_factor * S / (S + 1e-20)` (with `S` the selected
weights' sum) — the routing-scale constant up to epsilon, which equals
`1.0` only when the scale is `1`.  Otherwise (no renormalization) the
returned weights are exactly the selected scores times the scale. -/
theorem moe_gate_norm_scale (g : MoeGate) (scores ws : List (List ℚ))
    (ids : List (List ℕ)) (h : g.selectTopk scores = .ok (ws, ids)) :
    ∃ out, g.forwardScores scores = .ok (ids, out) ∧
      ((1 < g.top_k ∧ g.cfg.norm_topk_prob) →
        ∀ i : ℕ, (out.getD i []).sum =
          g.cfg.routed_scaling_factor *
            ((ws.getD i []).sum / ((ws.getD i []).sum + epsDenom))) ∧
      (¬(1 < g.top_k ∧ g.cfg.norm_topk_prob) →
        out = ws.map (fun row =>
          row.map (fun x => x * g.cfg.routed_scaling_factor))) := by
  refine ⟨(if 1 < g.top_k ∧ g.cfg.norm_topk_prob then normRows ws else ws).map
      (fun row => row.map (fun x => x * g.cfg.routed_scaling_factor)),
    ?_, ?_, ?_⟩
  · rw [MoeGate.forwardScores, h, exBind_ok_reduce]
  · intro hc i
    rw [if_pos hc]
    rw [getD_map_fix _ _ _ ([] : List ℚ) ([] : List ℚ) rfl]
    rw [normRows, getD_map_fix _ _ _ ([] : List ℚ) ([] : List ℚ) rfl]
    rw [sum_map_mul, sum_map_div]
    exact mul_comm _ _
  · intro hc
    rw [if_neg hc]

/-- Routing configuration exercising the renormalization path: greedy
top-2 with `norm_topk_prob = true` and `routed_scaling_factor = 2`; the
constant score row `[1/2, 1/2]` is exactly the softmax of two equal
logits. -/
def gateA : MoeGate :=
  { score := fun _ => [1/2, 1/2]
    cfg := { n_shared_experts := none, n_routed_experts := some 2,
             routed_scaling_factor := 2, topk_method := .Greedy,
             num_experts_per_tok := some 2, moe_layer_freq := 1,
             first_k_dense_replace := 0, norm_topk_prob := true,
             scoring_func := .Softmax, n_group := 1, topk_group := 1 }
    top_k := 2
    n_routed_experts := 2
    e_score_correction_bias := none }

theorem moe_gate_norm_scale_witness :
    gateA.selectTopk [[1/2, 1/2]] = .ok ([[1/2, 1/2]], [[0, 1]]) ∧
    (∃ out, gateA.forwardScores [[1/2, 1/2]] = .ok ([[0, 1]], out) ∧
      ((1 < gateA.top_k ∧ gateA.cfg.norm_topk_prob) →
        ∀ i : ℕ, (out.getD i []).sum =
          gateA.cfg.routed_scaling_factor *
            ((([[1/2, 1/2]] : List (List ℚ)).getD i []).sum /
              ((([[1/2, 1/2]] : List (List ℚ)).getD i []).sum + epsDenom))) ∧
      (¬(1 < gateA.top_k ∧ gateA.cfg.norm_topk_prob) →
        out = ([[1/2, 1/2]] : List (List ℚ)).map (fun row =>
          row.map (fun x => x * gateA.cfg.routed_scaling_factor)))) :=
  ⟨by with_unfolding_all rfl,
    moe_gate_norm_scale gateA [[1/2, 1/2]] [[1/2, 1/2]] [[0, 1]]
      (by with_unfolding_all rfl)⟩

/-- Claim C1, as stated, is false at a concrete input: with
`routed_scaling_factor = 2`, normalization enabled and `top_k = 2`, the
token with score row `[1/2, 1/2]` gets returned weights summing to
`2 * 10^20 / (10^20 + 1) > 3/2`, not `1.0 (± ε)`. -/
theorem moe_gate_sum_one_cex :
    gateA.forwardScores [[1/2, 1/2]] =
      .ok ([[0, 1]], [[100000000000000000000 / 100000000000000000001,
        100000000000000000000 / 100000000000000000001]]) ∧
    (1 < gateA.top_k ∧ gateA.cfg.norm_topk_prob) ∧
    (3 / 2 : ℚ) < ([100000000000000000000 / 100000000000000000001,
      100000000000000000000 / 100000000000000000001] : List ℚ).sum := by
  refine ⟨by with_unfolding_all rfl, by decide, ?_⟩
  rw [List.sum_cons, List.sum_cons, List.sum_nil]
  norm_num

/-- Modelled from the spec: the GroupLimitedGreedy policy — "per-group max
score determines group ranking (not top-2 sum); keep top `topk_group`
groups; invert the group mask to zero disallowed experts; top-k over the
masked scores" — for one token row.  An expert at position `e` belongs to
group `e / (n_experts / n_group)`. -/
def glgSpecRow (n_group topk_group k : ℕ) (row : List ℚ) :
    Except Err (List ℚ × List ℕ) := do
  let groups ← chunkExact n_group row
  let group_scores ← exMap maxDim groups
  let tg ← topk topk_group group_scores
  let masked := (enumQ row).map (fun p =>
    if p.1 / (row.length / n_group) ∈ tg.indices then p.2 else 0)
  let tk ← topk k masked
  .ok (tk.values, tk.indices)

/-- Modelled from the spec: GroupLimitedGreedy routing over a batch of
token score rows, returning `(weights, indices)` per token. -/
def glgSpec (n_group topk_group k : ℕ) (scores : List (List ℚ)) :
    Except Err (List (List ℚ) × List (List ℕ)) := do
  let rows ← exMap (glgSpecRow n_group topk_group k) scores
  .ok (rows.map Prod.fst, rows.map Prod.snd)

/-- Routing configuration for the GroupLimitedGreedy policy: 4 experts in
2 groups, `topk_group = 1`, `top_k = 2`, no renormalization, scale 1.
The score rows used with it sum to 1, as a softmax row does. -/
def gateB : MoeGate :=
  { score := fun _ => [2/5, 3/10, 1/5, 1/10]
    cfg := { n_shared_experts := none, n_routed_experts := some 4,
             routed_scaling_factor := 1, topk_method := .GroupLimitedGreedy,
             num_experts_per_tok := some 2, moe_layer_freq := 1,
             first_k_dense_replace := 0, norm_topk_prob := false,
             scoring_func := .Softmax, n_group := 2, topk_group := 1 }
    top_k := 2
    n_routed_experts := 4
    e_score_correction_bias := none }

/-- Claim C2 is the spec's description of GroupLimitedGreedy, and the code
contradicts it (a code bug, visible against the source's own comments):
`group_idx` is `scores.topk_unsorted(topk_group)` over the raw per-expert
scores (line 526) instead of the per-group max `group_scores`, and
`masked_fill` is applied to `score_mask` itself (line 546) instead of the
scores, so the final top-k runs over the 0/1 mask.  Concretely, for the
token with scores `[2/5, 3/10, 1/5, 1/10]` the code returns weights
`[1, 1]` (mask values) where the spec's routing returns the masked scores
`[2/5, 3/10]`; and for scores `[1/10, 1/5, 3/10, 2/5]` (best expert index
`3 ≥ n_group`) the scatter into the `(n, n_group)` group mask is out of
bounds and the call fails, where the spec's routing succeeds. -/
theorem glg_mask_routing_bug :
    gateB.forwardScores [[2/5, 3/10, 1/5, 1/10]] = .ok ([[0, 1]], [[1, 1]]) ∧
    glgSpec 2 1 2 [[2/5, 3/10, 1/5, 1/10]] =
      .ok ([[2/5, 3/10]], [[0, 1]]) ∧
    (1 : ℚ) ≠ 2/5 ∧
    gateB.forwardScores [[1/10, 1/5, 3/10, 2/5]] = .error .shapeErr ∧
    glgSpec 2 1 2 [[1/10, 1/5, 3/10, 2/5]] =
      .ok ([[2/5, 3/10]], [[3, 2]]) := by
  refine ⟨by with_unfolding_all rfl, by with_unfolding_all rfl, by norm_num,
    by with_unfolding_all rfl, by with_unfolding_all rfl⟩

theorem addBias_ok_lengths {row bias sfc : List ℚ}
    (h : addBias row bias = .ok sfc) :
    sfc.length = row.length ∧ row.length = bias.length := by
  unfold addBias at h
  split at h
  · next hg =>
    injection h with h2
    subst h2
    exact ⟨by rw [List.length_zipWith, hg, Nat.min_self], hg⟩
  · exact absurd h (by simp)

theorem mulMask_ok_length {row mask tmp : List ℚ}
    (h : mulMask row mask = .ok tmp) : tmp.length = row.length := by
  unfold mulMask at h
  split at h
  · next hg =>
    injection h with h2
    subst h2
    rw [List.length_zipWith, hg, Nat.min_self]
  · exact absurd h (by simp)

theorem maskedFill_ok_length {base mask tmp : List ℚ} {v : ℚ}
    (h : maskedFill base mask v = .ok tmp) : tmp.length = base.length := by
  unfold maskedFill at h
  split at h
  · next hg =>
    injection h with h2
    subst h2
    rw [List.length_zipWith, hg, Nat.min_self]
  · exact absurd h (by simp)

theorem chunkExact_ok {n : ℕ} {row : List ℚ} {groups : List (List ℚ)}
    (h : chunkExact n row = .ok groups) :
    n ≠ 0 ∧ n ∣ row.length ∧ groups.length = n := by
  unfold chunkExact at h
  split at h
  · next hg =>
    injection h with h2
    subst h2
    exact ⟨hg.1, hg.2, by simp⟩
  · exact absurd h (by simp)

theorem scatterFold_length (idx : List ℕ) (z : List ℚ) :
    (idx.foldl (fun acc i => acc.set i (acc.getD i 0 + 1)) z).length =
      z.length := by
  induction idx generalizing z with
  | nil => rfl
  | cons i is ih => rw [List.foldl_cons, ih, List.length_set]

theorem scatterAddOnes_ok_length {zeros out : List ℚ} {idx : List ℕ}
    (h : scatterAddOnes zeros idx = .ok out) : out.length = zeros.length := by
  unfold scatterAddOnes at h
  split at h
  · injection h with h2
    subst h2
    exact scatterFold_length idx zeros
  · exact absurd h (by simp)

theorem gatherRow_ok {row w : List ℚ} {idx : List ℕ}
    (h : gatherRow row idx = .ok w) :
    w = idx.map (fun i => row.getD i 0) ∧ ∀ i ∈ idx, i < row.length := by
  unfold gatherRow at h
  split at h
  · next hg =>
    injection h with h2
    exact ⟨h2.symm, by simpa using List.all_eq_true.mp hg⟩
  · exact absurd h (by simp)

theorem expandMask_length (m : List ℚ) (sub : ℕ) :
    (expandMask m sub).length = m.length * sub := by
  induction m with
  | nil => simp [expandMask]
  | cons v rest ih =>
    simp only [expandMask, List.map_cons, List.flatten_cons,
      List.length_append, List.length_replicate, List.length_cons] at ih ⊢
    rw [ih, Nat.succ_mul, Nat.add_comm]

/-- Structural facts about one token's selection result: the returned
index row has exactly `top_k` pairwise-distinct entries, and (when the
score row has the configured expert width) every entry addresses a real
expert column. -/
theorem selectRow_ok_shape {g : MoeGate} {row w : List ℚ} {idx : List ℕ}
    (h : g.selectRow row = .ok (w, idx)) :
    idx.length = g.top_k ∧ idx.Nodup ∧
      (row.length = g.n_routed_experts → ∀ i ∈ idx, i < row.length) := by
  cases hm : g.cfg.topk_method with
  | Greedy =>
    simp only [MoeGate.selectRow, hm] at h
    obtain ⟨t, ht, hrest⟩ := exBind_ok_inv h
    simp only [Except.ok.injEq, Prod.mk.injEq] at hrest
    obtain ⟨h1, h2⟩ := hrest
    subst h1 h2
    obtain ⟨hl, _, hnd, hbd⟩ := topk_ok ht
    exact ⟨hl, hnd, fun _ => hbd⟩
  | NoAuxTc =>
    simp only [MoeGate.selectRow, hm] at h
    cases hb : g.e_score_correction_bias with
    | none => rw [hb] at h; exact absurd h (by simp)
    | some bias =>
      rw [hb] at h
      obtain ⟨sfc, hsfc, h⟩ := exBind_ok_inv h
      obtain ⟨groups, hgroups, h⟩ := exBind_ok_inv h
      obtain ⟨gs, hgs, h⟩ := exBind_ok_inv h
      obtain ⟨tg, htg, h⟩ := exBind_ok_inv h
      obtain ⟨gm, hgm, h⟩ := exBind_ok_inv h
      obtain ⟨tmp, htmp, h⟩ := exBind_ok_inv h
      obtain ⟨tk, htk, h⟩ := exBind_ok_inv h
      obtain ⟨wg, hwg, h⟩ := exBind_ok_inv h
      simp only [Except.ok.injEq, Prod.mk.injEq] at h
      obtain ⟨h1, h2⟩ := h
      subst h1 h2
      obtain ⟨hl, _, hnd, hbd⟩ := topk_ok htk
      refine ⟨hl, hnd, fun _ i hi => ?_⟩
      have := hbd i hi
      rw [mulMask_ok_length htmp, (addBias_ok_lengths hsfc).1] at this
      exact this
  | GroupLimitedGreedy =>
    simp only [MoeGate.selectRow, hm] at h
    obtain ⟨groups, hgroups, h⟩ := exBind_ok_inv h
    obtain ⟨gs, hgs, h⟩ := exBind_ok_inv h
    obtain ⟨tg, htg, h⟩ := exBind_ok_inv h
    obtain ⟨gm, hgm, h⟩ := exBind_ok_inv h
    obtain ⟨tmp, htmp, h⟩ := exBind_ok_inv h
    obtain ⟨tk, htk, h⟩ := exBind_ok_inv h
    simp only [Except.ok.injEq, Prod.mk.injEq] at h
    obtain ⟨h1, h2⟩ := h
    subst h1 h2
    obtain ⟨hl, _, hnd, hbd⟩ := topk_ok htk
    refine ⟨hl, hnd, fun hE i hi => ?_⟩
    have hch := chunkExact_ok hgroups
    have hgslen : gs.length = g.cfg.n_group := by
      rw [exMap_ok_length hgs, hch.2.2]
    have hbound := hbd i hi
    rw [maskedFill_ok_length htmp, expandMask_length,
      scatterAddOnes_ok_length hgm, List.length_map, hgslen] at hbound
    have hdvd : g.cfg.n_group ∣ g.n_routed_experts := hE ▸ hch.2.1
    rw [Nat.mul_div_cancel' hdvd] at hbound
    exact hE ▸ hbound

theorem forwardScores_ok_inv {g : MoeGate} {scores : List (List ℚ)}
    {ids : List (List ℕ)} {w : List (List ℚ)}
    (h : g.forwardScores scores = .ok (ids, w)) :
    ∃ rows, exMap g.selectRow scores = .ok rows ∧
      ids = rows.map Prod.snd := by
  unfold MoeGate.forwardScores at h
  obtain ⟨sel, hsel, h⟩ := exBind_ok_inv h
  unfold MoeGate.selectTopk at hsel
  obtain ⟨rows, hrows, hsel⟩ := exBind_ok_inv hsel
  simp only [Except.ok.injEq] at hsel
  subst hsel
  simp only [Except.ok.injEq, Prod.mk.injEq] at h
  exact ⟨rows, hrows, h.1.symm⟩

/-- Claim C6: for every configuration and input, a successful
`MoeGate::forward` returns exactly `top_k` expert indices per token, with
no expert id repeated within one token's selection. -/
theorem moe_gate_distinct_experts (g : MoeGate) (xs : List Vec)
    (ids : List (List ℕ)) (w : List (List ℚ))
    (h : g.forward xs = .ok (ids, w)) :
    ∀ row ∈ ids, row.length = g.top_k ∧ row.Nodup := by
  unfold MoeGate.forward at h
  obtain ⟨rows, hrows, hids⟩ := forwardScores_ok_inv h
  subst hids
  intro row hrow
  rcases List.mem_map.mp hrow with ⟨pr, hpr, rfl⟩
  obtain ⟨w1, idx1⟩ := pr
  obtain ⟨a, _, hsel⟩ := exMap_ok_mem hrows _ hpr
  obtain ⟨h1, h2, _⟩ := selectRow_ok_shape hsel
  exact ⟨h1, h2⟩

theorem moe_gate_distinct_experts_witness :
    gateA.forward [fun _ => 0] = .ok ([[0, 1]],
      [[100000000000000000000 / 100000000000000000001,
        100000000000000000000 / 100000000000000000001]]) ∧
    ∀ row ∈ ([[0, 1]] : List (List ℕ)),
      row.length = gateA.top_k ∧ row.Nodup :=
  ⟨by with_unfolding_all rfl,
    moe_gate_distinct_experts gateA [fun _ => 0] [[0, 1]]
      [[100000000000000000000 / 100000000000000000001,
        100000000000000000000 / 100000000000000000001]]
      (by with_unfolding_all rfl)⟩

theorem mulMask_ok_eq {a b t : List ℚ} (h : mulMask a b = .ok t) :
    t = List.zipWith (fun x y => x * y) a b ∧ a.length = b.length := by
  unfold mulMask at h
  split at h
  · next hg =>
    injection h with h2
    exact ⟨h2.symm, hg⟩
  · exact absurd h (by simp)

theorem map_const_zero_getD (l : List ℚ) (j : ℕ) :
    (l.map (fun _ => (0 : ℚ))).getD j 0 = 0 := by
  rw [List.getD_eq_getElem?_getD, List.getElem?_map]
  cases l[j]? <;> rfl

theorem scatterFold_getD (idx : List ℕ) (z : List ℚ)
    (hidx : ∀ i ∈ idx, i < z.length) (j : ℕ) (hj : j < z.length) :
    (idx.foldl (fun acc i => acc.set i (acc.getD i 0 + 1)) z).getD j 0 =
      z.getD j 0 + (idx.count j : ℚ) := by
  induction idx generalizing z with
  | nil => simp
  | cons i is ih =>
    rw [List.foldl_cons]
    have hi : i < z.length := hidx i (List.mem_cons_self _ _)
    have hlen : (z.set i (z.getD i 0 + 1)).length = z.length :=
      List.length_set z i _
    rw [ih (z.set i (z.getD i 0 + 1))
      (fun a ha => hlen ▸ hidx a (List.mem_cons_of_mem _ ha)) (hlen ▸ hj)]
    have hset : (z.set i (z.getD i 0 + 1)).getD j 0 =
        if i = j then z.getD i 0 + 1 else z.getD j 0 := by
      rw [List.getD_eq_getElem?_getD, List.getElem?_set]
      by_cases hij : i = j
      · subst hij
        rw [if_pos rfl, if_pos hi, if_pos rfl]
        rw [List.getD_eq_getElem?_getD]
        rfl
      · rw [if_neg hij, if_neg hij, List.getD_eq_getElem?_getD]
    rw [hset, List.count_cons]
    by_cases hij : i = j
    · subst hij
      simp only [if_pos rfl, beq_self_eq_true, if_true]
      push_cast
      ring
    · have hbe : (i == j) = false := beq_eq_false_iff_ne.mpr hij
      simp only [if_neg hij, hbe]
      push_cast
      simp

theorem scatterAddOnes_ok_getD {zeros out : List ℚ} {idx : List ℕ}
    (h : scatterAddOnes zeros idx = .ok out) (j : ℕ) (hj : j < zeros.length) :
    out.getD j 0 = zeros.getD j 0 + (idx.count j : ℚ) := by
  unfold scatterAddOnes at h
  split at h
  · next hg =>
    injection h with h2
    subst h2
    exact scatterFold_getD idx zeros (by simpa using List.all_eq_true.mp hg)
      j hj
  · exact absurd h (by simp)

theorem scatter_mask_indicator {gs gm : List ℚ} {gidx : List ℕ}
    (h : scatterAddOnes (gs.map (fun _ => (0 : ℚ))) gidx = .ok gm)
    (hnd : gidx.Nodup) (j : ℕ) (hj : j < gs.length) :
    gm.getD j 0 = if j ∈ gidx then 1 else 0 := by
  have hg := scatterAddOnes_ok_getD h j (by simpa using hj)
  rw [map_const_zero_getD, zero_add] at hg
  rw [hg]
  by_cases hmem : j ∈ gidx
  · rw [if_pos hmem, List.count_eq_one_of_mem hnd hmem]
    norm_num
  · rw [if_neg hmem, List.count_eq_zero.mpr hmem]
    norm_num

theorem expandMask_getD (m : List ℚ) (sub : ℕ) (hs : sub ≠ 0) (e : ℕ)
    (he : e < m.length * sub) :
    (expandMask m sub).getD e 0 = m.getD (e / sub) 0 := by
  induction m generalizing e with
  | nil => simp at he
  | cons v rest ih =>
    simp only [expandMask, List.map_cons, List.flatten_cons] at ih ⊢
    by_cases hlt : e < sub
    · rw [List.getD_eq_getElem?_getD,
        List.getElem?_append_left (by simpa using hlt),
        List.getElem?_replicate, if_pos hlt, Nat.div_eq_of_lt hlt]
      rfl
    · push_neg at hlt
      rw [List.getD_eq_getElem?_getD,
        List.getElem?_append_right (by simpa using hlt)]
      simp only [List.length_replicate]
      have he' : e - sub < rest.length * sub := by
        rw [List.length_cons, Nat.succ_mul] at he
        omega
      rw [← List.getD_eq_getElem?_getD, ih (e - sub) he',
        Nat.div_eq_sub_div (Nat.pos_of_ne_zero hs) hlt]
      rfl

theorem enumQ_getElem? (l : List ℚ) (i : ℕ) (hi : i < l.length) :
    (enumQ l)[i]? = some (i, l.getD i 0) := by
  unfold enumQ
  rw [List.getElem?_map, List.getElem?_range (by simpa using hi)]
  rfl

/-- Modelled from the spec: the NoAuxTc policy for one token row — "add a
learned per-expert correction bias to scores before ranking; partition
experts into equal-size groups, take each token's top-2 scores per group,
sum them as a group score, keep only the top `topk_group` groups (zero out
experts in dropped groups), then take top-k over the masked, bias-corrected
scores; final weights are gathered from the *uncorrected* probabilities at
the chosen indices (bias affects selection only, not the reported
weight)".  An expert at position `e` belongs to group
`e / (n_experts / n_group)`; zeroing-out is a direct membership test on
the kept groups. -/
def noauxTcSpecRow (bias : List ℚ) (n_group topk_group k : ℕ)
    (row : List ℚ) : Except Err (List ℚ × List ℕ) := do
  let corrected ← addBias row bias
  let groups ← chunkExact n_group corrected
  let group_scores ← exMap
    (fun grp => do
      let t ← topk 2 grp
      .ok t.values.sum) groups
  let tg ← topk topk_group group_scores
  let masked := (enumQ corrected).map (fun p =>
    if p.1 / (corrected.length / n_group) ∈ tg.indices then p.2 else 0)
  let tk ← topk k masked
  let wq ← gatherRow row tk.indices
  .ok (wq, tk.indices)

/-- Modelled from the spec: NoAuxTc routing over a batch of token score
rows, returning `(weights, indices)` per token. -/
def noauxTcSpec (bias : List ℚ) (n_group topk_group k : ℕ)
    (scores : List (List ℚ)) :
    Except Err (List (List ℚ) × List (List ℕ)) := do
  let rows ← exMap (noauxTcSpecRow bias n_group topk_group k) scores
  .ok (rows.map Prod.fst, rows.map Prod.snd)

/-- One token's NoAuxTc selection in the source equals the spec's
description of the policy. -/
theorem selectRow_noaux_spec {g : MoeGate} {bias row w : List ℚ}
    {idx : List ℕ}
    (hm : g.cfg.topk_method = .NoAuxTc)
    (hb : g.e_score_correction_bias = some bias)
    (hE : row.length = g.n_routed_experts)
    (h : g.selectRow row = .ok (w, idx)) :
    noauxTcSpecRow bias g.cfg.n_group g.cfg.topk_group g.top_k row =
      .ok (w, idx) := by
  simp only [MoeGate.selectRow, hm, hb] at h
  obtain ⟨sfc, hsfc, h⟩ := exBind_ok_inv h
  obtain ⟨groups, hgroups, h⟩ := exBind_ok_inv h
  obtain ⟨gs, hgs, h⟩ := exBind_ok_inv h
  obtain ⟨tg, htg, h⟩ := exBind_ok_inv h
  obtain ⟨gm, hgm, h⟩ := exBind_ok_inv h
  obtain ⟨tmp, htmp, h⟩ := exBind_ok_inv h
  have hch := chunkExact_ok hgroups
  have hsfclen : sfc.length = row.length := (addBias_ok_lengths hsfc).1
  have hgslen : gs.length = g.cfg.n_group := by
    rw [exMap_ok_length hgs, hch.2.2]
  obtain ⟨htglen, _, htgnd, htgbd⟩ := topk_ok htg
  have hgmlen : gm.length = gs.length := by
    rw [scatterAddOnes_ok_length hgm, List.length_map]
  obtain ⟨htmp_eq, hlen_eq⟩ := mulMask_ok_eq htmp
  have hdvd : g.cfg.n_group ∣ sfc.length := hch.2.1
  have hEsub :
      g.cfg.n_group * (g.n_routed_experts / g.cfg.n_group) = sfc.length := by
    rw [← hE, ← hsfclen]
    exact Nat.mul_div_cancel' hdvd
  have hsubdef : sfc.length / g.cfg.n_group =
      g.n_routed_experts / g.cfg.n_group := by
    rw [hsfclen, hE]
  have hkey : tmp = (enumQ sfc).map (fun p =>
      if p.1 / (sfc.length / g.cfg.n_group) ∈ tg.indices then p.2 else 0) := by
    rw [htmp_eq]
    apply List.ext_getElem
    · rw [List.length_zipWith, ← hlen_eq, Nat.min_self, List.length_map,
        enumQ_length]
    · intro i hi1 hi2
      have hi : i < sfc.length := by
        rw [List.length_zipWith, ← hlen_eq, Nat.min_self] at hi1
        exact hi1
      have hmi : i < (expandMask gm
          (g.n_routed_experts / g.cfg.n_group)).length := by
        rw [← hlen_eq]
        exact hi
      have hprod : i < gm.length * (g.n_routed_experts / g.cfg.n_group) := by
        rw [hgmlen, hgslen, hEsub]
        exact hi
      have hsub0 : g.n_routed_experts / g.cfg.n_group ≠ 0 := by
        intro hz
        rw [hz, Nat.mul_zero] at hprod
        exact Nat.not_lt_zero _ hprod
      have hdivlt : i / (g.n_routed_experts / g.cfg.n_group) < gs.length := by
        rw [hgslen]
        exact (Nat.div_lt_iff_lt_mul (Nat.pos_of_ne_zero hsub0)).mpr
          (by rw [hEsub]; exact hi)
      have hien : i < (enumQ sfc).length := by
        rw [enumQ_length]
        exact hi
      have hmaskval : (expandMask gm
          (g.n_routed_experts / g.cfg.n_group))[i] =
          if i / (g.n_routed_experts / g.cfg.n_group) ∈ tg.indices
          then 1 else 0 := by
        rw [← List.getD_eq_getElem _ 0 hmi,
          expandMask_getD gm _ hsub0 i hprod]
        exact scatter_mask_indicator hgm htgnd _ hdivlt
      have henum : (enumQ sfc)[i] = (i, sfc.getD i 0) := by
        have h1 := enumQ_getElem? sfc i hi
        rw [List.getElem?_eq_getElem hien] at h1
        exact Option.some.inj h1
      rw [List.getElem_zipWith, List.getElem_map, henum, hmaskval]
      rw [hsubdef, ← List.getD_eq_getElem sfc 0 hi]
      by_cases hmem :
          i / (g.n_routed_experts / g.cfg.n_group) ∈ tg.indices
      · rw [if_pos hmem, if_pos hmem, mul_one]
      · rw [if_neg hmem, if_neg hmem, mul_zero]
  unfold noauxTcSpecRow
  rw [hsfc, exBind_ok_reduce, hgroups, exBind_ok_reduce, hgs,
    exBind_ok_reduce, htg, exBind_ok_reduce, ← hkey]
  exact h

/-- Claim C3: under the NoAuxTc policy, the top-k selection stage of
`MoeGate::forward` refines the spec's description: the correction bias is
added for ranking only, group scores are per-group top-2 sums of the
corrected scores, only the top `topk_group` groups survive (other groups'
experts zeroed), the final indices are a top-k over the masked corrected
scores, and the returned weights are gathered from the uncorrected scores
at those indices.  (Steps 4-5 of the routing contract — renormalization
and global scaling — apply after this stage; see `moe_gate_norm_scale`.) -/
theorem noaux_selection_refines_spec (g : MoeGate) (bias : List ℚ)
    (scores ws : List (List ℚ)) (ids : List (List ℕ))
    (hm : g.cfg.topk_method = .NoAuxTc)
    (hb : g.e_score_correction_bias = some bias)
    (hE : ∀ row ∈ scores, row.length = g.n_routed_experts)
    (h : g.selectTopk scores = .ok (ws, ids)) :
    noauxTcSpec bias g.cfg.n_group g.cfg.topk_group g.top_k scores =
      .ok (ws, ids) := by
  unfold MoeGate.selectTopk at h
  obtain ⟨rows, hrows, h⟩ := exBind_ok_inv h
  have hspec : exMap (noauxTcSpecRow bias g.cfg.n_group g.cfg.topk_group
      g.top_k) scores = .ok rows :=
    exMap_congr_ok
      (fun a ha b hb2 => by
        cases b with
        | mk bw bidx => exact selectRow_noaux_spec hm hb (hE a ha) hb2) hrows
  unfold noauxTcSpec
  rw [hspec, exBind_ok_reduce]
  exact h

/-- NoAuxTc routing configuration for the witness: 4 experts in 2 groups,
`topk_group = 1`, `top_k = 2`, correction bias `[1/10, 0, 0, 0]`. -/
def gateC : MoeGate :=
  { score := fun _ => [1/4, 1/4, 1/4, 1/4]
    cfg := { n_shared_experts := none, n_routed_experts := some 4,
             routed_scaling_factor := 1, topk_method := .NoAuxTc,
             num_experts_per_tok := some 2, moe_layer_freq := 1,
             first_k_dense_replace := 0, norm_topk_prob := false,
             scoring_func := .Sigmoid, n_group := 2, topk_group := 1 }
    top_k := 2
    n_routed_experts := 4
    e_score_correction_bias := some [1/10, 0, 0, 0] }

theorem noaux_selection_refines_spec_witness :
    (gateC.cfg.topk_method = .NoAuxTc ∧
      gateC.e_score_correction_bias = some [1/10, 0, 0, 0] ∧
      (∀ row ∈ ([[1/4, 1/4, 1/4, 1/4]] : List (List ℚ)),
        row.length = gateC.n_routed_experts) ∧
      gateC.selectTopk [[1/4, 1/4, 1/4, 1/4]] =
        .ok ([[1/4, 1/4]], [[0, 1]])) ∧
    noauxTcSpec [1/10, 0, 0, 0] gateC.cfg.n_group gateC.cfg.topk_group
      gateC.top_k [[1/4, 1/4, 1/4, 1/4]] = .ok ([[1/4, 1/4]], [[0, 1]]) :=
  ⟨⟨rfl, rfl, by decide, by with_unfolding_all rfl⟩,
    noaux_selection_refines_spec gateC [1/10, 0, 0, 0]
      [[1/4, 1/4, 1/4, 1/4]] [[1/4, 1/4]] [[0, 1]] rfl rfl (by decide)
      (by with_unfolding_all rfl)⟩

/-- Positions `j` (slots in the top-k list) at which one token's id row
selects expert `i`. -/
def occRow (row : List ℕ) (i : ℕ) : List ℕ :=
  (List.range row.length).filter (fun j => row.getD j 0 = i)

/-- Modelled from the spec (`nonzero` from `ops.rs`, outside `src/`):
the row-major coordinates `(token, slot)` of the entries of
`topk_ids.eq(i)` that are nonzero; its transpose rows are the
`idx`/`top` index vectors of `Moe::moe_infer`. -/
def occ (ids : List (List ℕ)) (i : ℕ) : List (ℕ × ℕ) :=
  ((List.range ids.length).map (fun t =>
    (occRow (ids.getD t []) i).map (fun j => (t, j)))).flatten

/-- Modelled from the spec (`bincount` from `ops.rs`, outside `src/`):
the number of top-k slots over all tokens that name expert `i`. -/
def countFlat (ids : List (List ℕ)) (i : ℕ) : ℕ :=
  (ids.map (fun row => row.count i)).sum

/-- Add a row into position `t` of the output buffer (one destination of
an `index_add`); positions outside the buffer are ignored. -/
def addRowAt (y : List Vec) (t : ℕ) (r : Vec) : List Vec :=
  match y[t]? with
  | some v => y.set t (v + r)
  | none => y

/-- Modelled from the spec (candle's `index_add` along dim 0): additive
scatter — `rows[r]` is *added* into `y` at row `idx[r]`, accumulating
duplicates, never overwriting. -/
def indexAdd (y : List Vec) (idx : List ℕ) (rows : List Vec) : List Vec :=
  (idx.zip rows).foldl (fun acc p => addRowAt acc p.1 p.2) y

/-- `Moe` (lines 564-568): the routed experts, the optional shared expert
and the gate.  Each expert's `Mlp::forward` (lines 417-430) acts
independently on every row of its input batch (three linear maps and
pointwise activations), so an expert is embedded as its per-row map
`Vec → Vec`, applied to a gathered batch with `List.map`. -/
structure Moe where
  experts : List (Vec → Vec)
  shared_experts : Option (Vec → Vec)
  gate : MoeGate

/-- The body of the per-expert loop of `Moe::moe_infer` (lines 618-638)
for expert `i`: gather the tokens routed to `i` (`idx`), locate each
token's slot for `i` in its top-k list (`top`), run the expert on the
gathered rows, scale each output row by that token's weight for this
expert, and additively scatter into the output buffer. -/
def Moe.moeStep (m : Moe) (xs : List Vec) (topk_ids : List (List ℕ))
    (topk_weight : List (List ℚ)) (y : List Vec) (i : ℕ) : List Vec :=
  let pairs := occ topk_ids i
  let idx := pairs.map Prod.fst
  let top := pairs.map Prod.snd
  let gathered := idx.map (fun t => xs.getD t 0)
  let expert_out := gathered.map (m.experts.getD i (fun _ => 0))
  let ws := (idx.zip top).map (fun p =>
    (topk_weight.getD p.1 []).getD p.2 0)
  indexAdd y idx (List.zipWith (fun o c => smulQ c o) expert_out ws)

/-- `Moe::moe_infer` (lines 613-641): start from a zero buffer shaped like
the flattened input, loop over the experts in order, skip an expert whose
`bincount` entry is zero, otherwise run `moeStep`. -/
def Moe.moe_infer (m : Moe) (xs : List Vec) (topk_ids : List (List ℕ))
    (topk_weight : List (List ℚ)) : List Vec :=
  (List.range m.experts.length).foldl
    (fun y i =>
      if countFlat topk_ids i = 0 then y
      else m.moeStep xs topk_ids topk_weight y i)
    (xs.map (fun _ => 0))

/-- `Moe::moe_infer` without the `counts[i] == 0` skip (line 619-621):
used to state that skipping empty experts changes nothing. -/
def Moe.moeInferNoSkip (m : Moe) (xs : List Vec) (topk_ids : List (List ℕ))
    (topk_weight : List (List ℚ)) : List Vec :=
  (List.range m.experts.length).foldl
    (fun y i => m.moeStep xs topk_ids topk_weight y i)
    (xs.map (fun _ => 0))

/-- `Moe::forward` (lines 643-656): route with the gate, dispatch with
`moe_infer` on the flattened tokens, then add the shared expert's output
on the kept identity, if present.  (The reshape to and from
`(batch*seq, hidden)` is the identity on our per-token row lists.) -/
def Moe.forward (m : Moe) (xs : List Vec) : Except Err (List Vec) := do
  let identity := xs
  let r ← m.gate.forward xs
  let topk_idx := r.1
  let topk_weight := r.2
  let y := m.moe_infer xs topk_idx topk_weight
  match m.shared_experts with
  | some shared_experts =>
    .ok (List.zipWith (fun a b => a + b) y (identity.map shared_experts))
  | none => .ok y

theorem addRowAt_length (y : List Vec) (t : ℕ) (r : Vec) :
    (addRowAt y t r).length = y.length := by
  unfold addRowAt
  cases h : y[t]? with
  | none => rfl
  | some v => simp [List.length_set]

theorem addRowAt_getD_eq {y : List Vec} {t : ℕ} (r : Vec)
    (ht : t < y.length) :
    (addRowAt y t r).getD t 0 = y.getD t 0 + r := by
  unfold addRowAt
  rw [List.getElem?_eq_getElem ht]
  rw [List.getD_eq_getElem?_getD, List.getElem?_set, if_pos rfl, if_pos ht,
    List.getD_eq_getElem?_getD, List.getElem?_eq_getElem ht]
  rfl

theorem addRowAt_getD_ne {y : List Vec} {t u : ℕ} (r : Vec) (h : t ≠ u) :
    (addRowAt y t r).getD u 0 = y.getD u 0 := by
  unfold addRowAt
  cases hy : y[t]? with
  | none => rfl
  | some v =>
    rw [List.getD_eq_getElem?_getD, List.getElem?_set, if_neg h,
      List.getD_eq_getElem?_getD]

theorem foldl_addRowAt_length (l : List (ℕ × Vec)) (y : List Vec) :
    (l.foldl (fun acc p => addRowAt acc p.1 p.2) y).length = y.length := by
  induction l generalizing y with
  | nil => rfl
  | cons p ps ih => rw [List.foldl_cons, ih, addRowAt_length]

theorem foldl_addRowAt_getD (l : List (ℕ × Vec)) (y : List Vec) (t : ℕ)
    (ht : t < y.length) :
    (l.foldl (fun acc p => addRowAt acc p.1 p.2) y).getD t 0 =
      y.getD t 0 + ((l.filter (fun p => p.1 = t)).map Prod.snd).sum := by
  induction l generalizing y with
  | nil => simp
  | cons p ps ih =>
    rw [List.foldl_cons]
    have hlen : (addRowAt y p.1 p.2).length = y.length := addRowAt_length _ _ _
    rw [ih (addRowAt y p.1 p.2) (hlen ▸ ht)]
    by_cases hpt : p.1 = t
    · subst hpt
      rw [List.filter_cons_of_pos (by simp), List.map_cons, List.sum_cons,
        addRowAt_getD_eq p.2 ht, add_assoc]
    · rw [List.filter_cons_of_neg (by simpa using hpt),
        addRowAt_getD_ne p.2 hpt]

theorem zipWith_map_same {α β γ δ : Type} (k : β → γ → δ) (u : α → β)
    (v : α → γ) (l : List α) :
    List.zipWith k (l.map u) (l.map v) = l.map (fun a => k (u a) (v a)) := by
  induction l with
  | nil => rfl
  | cons a as ih => simp [ih]

theorem flatten_filter_single {β : Type} (n t : ℕ) (F : ℕ → List (ℕ × β))
    (hF : ∀ t' : ℕ, ∀ p ∈ F t', p.1 = t') :
    ((List.range n).map F).flatten.filter (fun p => p.1 = t) =
      if t < n then F t else [] := by
  induction n with
  | zero => simp
  | succ n ih =>
    rw [List.range_succ, List.map_append, List.flatten_append,
      List.filter_append, ih]
    simp only [List.map_cons, List.map_nil, List.flatten_cons,
      List.flatten_nil, List.append_nil]
    by_cases hn : t = n
    · subst hn
      rw [if_neg (Nat.lt_irrefl t), if_pos (Nat.lt_succ_self t),
        List.nil_append, List.filter_eq_self.mpr
          (fun p hp => by simpa using hF t p hp)]
    · have hfilter : (F n).filter (fun p => p.1 = t) = [] :=
        List.filter_eq_nil_iff.mpr (fun p hp => by
          simp only [decide_eq_true_eq]
          rw [hF n p hp]
          exact Ne.symm hn)
      rw [hfilter, List.append_nil]
      by_cases hlt : t < n
      · rw [if_pos hlt, if_pos (Nat.lt_succ_of_lt hlt)]
      · rw [if_neg hlt, if_neg (by omega)]

theorem occ_filter (ids : List (List ℕ)) (i t : ℕ) :
    (occ ids i).filter (fun p => p.1 = t) =
      if t < ids.length then (occRow (ids.getD t []) i).map (fun j => (t, j))
      else [] := by
  unfold occ
  exact flatten_filter_single ids.length t _
    (fun t' p hp => by
      rcases List.mem_map.mp hp with ⟨j, _, rfl⟩
      rfl)

theorem occRow_eq_nil_of_not_mem {row : List ℕ} {i : ℕ} (h : i ∉ row) :
    occRow row i = [] := by
  unfold occRow
  refine List.filter_eq_nil_iff.mpr (fun j hj => ?_)
  simp only [decide_eq_true_eq]
  intro hc
  rcases List.mem_range.mp hj with hjlt
  exact h (hc ▸ (List.getD_eq_getElem row 0 hjlt ▸ List.getElem_mem hjlt))

theorem countFlat_zero_occRow {ids : List (List ℕ)} {i : ℕ}
    (h : countFlat ids i = 0) (t : ℕ) : occRow (ids.getD t []) i = [] := by
  by_cases ht : t < ids.length
  · have hmem : ids.getD t [] ∈ ids := by
      rw [List.getD_eq_getElem ids [] ht]
      exact List.getElem_mem ht
    have hcount : (ids.getD t []).count i = 0 := by
      unfold countFlat at h
      have := List.sum_eq_zero_iff.mp h
      exact this _ (List.mem_map_of_mem _ hmem)
    exact occRow_eq_nil_of_not_mem (List.count_eq_zero.mp hcount)
  · rw [List.getD_eq_getElem?_getD, List.getElem?_eq_none (by omega)]
    rfl

theorem step_list_eq (fE : Vec → Vec) (gXs : ℕ → Vec) (w : List (List ℚ))
    (pairs : List (ℕ × ℕ)) :
    (pairs.map Prod.fst).zip
      (List.zipWith (fun o c => smulQ c o)
        (((pairs.map Prod.fst).map gXs).map fE)
        (((pairs.map Prod.fst).zip (pairs.map Prod.snd)).map
          (fun p => (w.getD p.1 []).getD p.2 0))) =
      pairs.map (fun p =>
        (p.1, smulQ ((w.getD p.1 []).getD p.2 0) (fE (gXs p.1)))) := by
  induction pairs with
  | nil => rfl
  | cons p ps ih =>
    simp only [List.map_cons, List.zip_cons_cons, List.zipWith_cons_cons]
    rw [ih]

theorem moeStep_length (m : Moe) (xs : List Vec) (ids : List (List ℕ))
    (w : List (List ℚ)) (y : List Vec) (i : ℕ) :
    (m.moeStep xs ids w y i).length = y.length := by
  simp only [Moe.moeStep, indexAdd]
  exact foldl_addRowAt_length _ _

theorem moeStep_getD (m : Moe) (xs : List Vec) (ids : List (List ℕ))
    (w : List (List ℚ)) (y : List Vec) (i t : ℕ) (ht : t < y.length) :
    (m.moeStep xs ids w y i).getD t 0 =
      y.getD t 0 + ((occRow (ids.getD t []) i).map (fun j =>
        smulQ ((w.getD t []).getD j 0)
          ((m.experts.getD i (fun _ => 0)) (xs.getD t 0)))).sum := by
  simp only [Moe.moeStep, indexAdd]
  rw [step_list_eq (m.experts.getD i (fun _ => 0))
    (fun u => xs.getD u 0) w (occ ids i)]
  rw [foldl_addRowAt_getD _ _ _ ht]
  congr 1
  rw [List.filter_map, List.map_map]
  have hcomp : ((fun q : ℕ × Vec => decide (q.1 = t)) ∘ (fun p : ℕ × ℕ =>
      (p.1, smulQ ((w.getD p.1 []).getD p.2 0)
        ((m.experts.getD i (fun _ => 0)) (xs.getD p.1 0))))) =
      fun p : ℕ × ℕ => decide (p.1 = t) := by
    funext p
    rfl
  rw [hcomp, occ_filter]
  by_cases hti : t < ids.length
  · rw [if_pos hti, List.map_map]
    refine congrArg List.sum ?_
    apply List.map_congr_left
    intro j _
    rfl
  · rw [if_neg hti]
    have hrow : ids.getD t [] = [] := by
      rw [List.getD_eq_getElem?_getD, List.getElem?_eq_none (by omega)]
      rfl
    rw [hrow]
    simp [occRow]

theorem map_const_zeroVec_getD (xs : List Vec) (t : ℕ) :
    (xs.map (fun _ => (0 : Vec))).getD t 0 = 0 := by
  rw [List.getD_eq_getElem?_getD, List.getElem?_map]
  cases xs[t]? <;> rfl

theorem moe_loop_length (m : Moe) (xs : List Vec) (ids : List (List ℕ))
    (w : List (List ℚ)) (L : List ℕ) (y : List Vec) :
    (L.foldl (fun y i => if countFlat ids i = 0 then y
      else m.moeStep xs ids w y i) y).length = y.length := by
  induction L generalizing y with
  | nil => rfl
  | cons i L ih =>
    rw [List.foldl_cons]
    by_cases hc : countFlat ids i = 0
    · rw [if_pos hc, ih]
    · rw [if_neg hc, ih, moeStep_length]

theorem moe_loop_getD (m : Moe) (xs : List Vec) (ids : List (List ℕ))
    (w : List (List ℚ)) (L : List ℕ) (y : List Vec) (t : ℕ)
    (ht : t < y.length) :
    (L.foldl (fun y i => if countFlat ids i = 0 then y
        else m.moeStep xs ids w y i) y).getD t 0 =
      y.getD t 0 + (L.map (fun i =>
        ((occRow (ids.getD t []) i).map (fun j =>
          smulQ ((w.getD t []).getD j 0)
            ((m.experts.getD i (fun _ => 0)) (xs.getD t 0)))).sum)).sum := by
  induction L generalizing y with
  | nil => simp
  | cons i L ih =>
    rw [List.foldl_cons, List.map_cons, List.sum_cons]
    by_cases hc : countFlat ids i = 0
    · rw [if_pos hc, ih y ht, countFlat_zero_occRow hc t]
      simp
    · rw [if_neg hc, ih _ (by rw [moeStep_length]; exact ht),
        moeStep_getD _ _ _ _ _ _ _ ht, add_assoc]

theorem occ_eq_nil_of_countFlat_zero {ids : List (List ℕ)} {i : ℕ}
    (h : countFlat ids i = 0) : occ ids i = [] := by
  unfold occ
  rw [List.flatten_eq_nil_iff]
  intro l hl
  rcases List.mem_map.mp hl with ⟨t, _, rfl⟩
  rw [countFlat_zero_occRow h t]
  rfl

theorem moe_infer_eq_noSkip (m : Moe) (xs : List Vec)
    (ids : List (List ℕ)) (w : List (List ℚ)) :
    m.moe_infer xs ids w = m.moeInferNoSkip xs ids w := by
  unfold Moe.moe_infer Moe.moeInferNoSkip
  generalize (xs.map (fun _ => (0 : Vec))) = y
  generalize List.range m.experts.length = L
  induction L generalizing y with
  | nil => rfl
  | cons i L ih =>
    rw [List.foldl_cons, List.foldl_cons]
    by_cases hc : countFlat ids i = 0
    · rw [if_pos hc]
      have hstep : m.moeStep xs ids w y i = y := by
        simp [Moe.moeStep, occ_eq_nil_of_countFlat_zero hc, indexAdd]
      rw [hstep]
      exact ih y
    · rw [if_neg hc]
      exact ih _

theorem listSum_map_range {M : Type} [AddCommMonoid M] (f : ℕ → M) (n : ℕ) :
    ((List.range n).map f).sum = ∑ j in Finset.range n, f j := by
  induction n with
  | zero => simp
  | succ n ih =>
    rw [List.range_succ, List.map_append, List.sum_append,
      Finset.sum_range_succ, ih]
    simp

theorem listSum_map_filter {M : Type} [AddCommMonoid M] (l : List ℕ)
    (p : ℕ → Prop) [DecidablePred p] (f : ℕ → M) :
    ((l.filter (fun a => p a)).map f).sum =
      (l.map (fun a => if p a then f a else 0)).sum := by
  induction l with
  | nil => rfl
  | cons a as ih =>
    by_cases hp : p a
    · rw [List.filter_cons_of_pos (by simpa using hp), List.map_cons,
        List.sum_cons, ih, List.map_cons, List.sum_cons, if_pos hp]
    · rw [List.filter_cons_of_neg (by simpa using hp), ih, List.map_cons,
        List.sum_cons, if_neg hp, zero_add]

theorem regroup_experts {M : Type} [AddCommMonoid M] (E k : ℕ)
    (row : List ℕ) (hrowlen : row.length = k)
    (hrange : ∀ e ∈ row, e < E) (term : ℕ → ℕ → M) :
    ((List.range E).map (fun i =>
      ((occRow row i).map (fun j => term i j)).sum)).sum =
      ((List.range k).map (fun j => term (row.getD j 0) j)).sum := by
  rw [listSum_map_range]
  have h1 : ∀ i, ((occRow row i).map (fun j => term i j)).sum =
      ∑ j in Finset.range k, if row.getD j 0 = i then term i j else 0 := by
    intro i
    unfold occRow
    rw [hrowlen, listSum_map_filter (List.range k)
      (fun j => row.getD j 0 = i), listSum_map_range]
  simp only [h1]
  rw [Finset.sum_comm, listSum_map_range]
  apply Finset.sum_congr rfl
  intro j hj
  rw [Finset.sum_ite_eq, if_pos]
  rw [Finset.mem_range]
  apply hrange
  have hjlt : j < row.length := by
    rw [hrowlen]
    exact Finset.mem_range.mp hj
  rw [List.getD_eq_getElem row 0 hjlt]
  exact List.getElem_mem hjlt

/-- Claim C4: in `Moe::moe_infer`, every token's output row is exactly the
sum of `top_k` additive terms weight × expert-output, one per selected
expert slot, accumulated additively into a zero-initialized buffer (so
nothing is overwritten and no token is dropped, however small `top_k` is
relative to the expert count); moreover the `counts[i] == 0` skip changes
nothing — experts with no assigned token contribute nothing either way. -/
theorem moe_infer_additive_terms (m : Moe) (xs : List Vec)
    (ids : List (List ℕ)) (w : List (List ℚ)) (k : ℕ)
    (hlen : ids.length = xs.length)
    (hk : ∀ row ∈ ids, row.length = k)
    (hrange : ∀ row ∈ ids, ∀ e ∈ row, e < m.experts.length) :
    (m.moe_infer xs ids w).length = xs.length ∧
    m.moe_infer xs ids w = m.moeInferNoSkip xs ids w ∧
    ∀ t, t < xs.length → (m.moe_infer xs ids w).getD t 0 =
      ((List.range k).map (fun j =>
        smulQ ((w.getD t []).getD j 0)
          ((m.experts.getD ((ids.getD t []).getD j 0) (fun _ => 0))
            (xs.getD t 0)))).sum := by
  refine ⟨?_, moe_infer_eq_noSkip m xs ids w, ?_⟩
  · unfold Moe.moe_infer
    rw [moe_loop_length, List.length_map]
  · intro t ht
    have hzl : t < (xs.map (fun _ => (0 : Vec))).length := by
      rw [List.length_map]
      exact ht
    unfold Moe.moe_infer
    rw [moe_loop_getD m xs ids w _ _ t hzl, map_const_zeroVec_getD, zero_add]
    have htl : t < ids.length := by omega
    have hrmem : ids.getD t [] ∈ ids := by
      rw [List.getD_eq_getElem ids [] htl]
      exact List.getElem_mem htl
    exact regroup_experts m.experts.length k (ids.getD t [])
      (hk _ hrmem) (hrange _ hrmem)
      (fun i j => smulQ ((w.getD t []).getD j 0)
        ((m.experts.getD i (fun _ => 0)) (xs.getD t 0)))

/-- Concrete two-expert bank used by the witnesses: identity expert and
a doubling expert, no shared expert. -/
def moeD : Moe :=
  { experts := [fun v => v, fun v => fun i => 2 * v i]
    shared_experts := none
    gate := gateA }

/-- Concrete one-token batch used by the witnesses. -/
def xsD : List Vec := [fun _ => 1]

theorem moe_infer_additive_terms_witness :
    (([[0, 1]] : List (List ℕ)).length = xsD.length ∧
      (∀ row ∈ ([[0, 1]] : List (List ℕ)), row.length = 2) ∧
      (∀ row ∈ ([[0, 1]] : List (List ℕ)), ∀ e ∈ row,
        e < moeD.experts.length)) ∧
    ((moeD.moe_infer xsD [[0, 1]] [[1/2, 1/3]]).length = xsD.length ∧
      moeD.moe_infer xsD [[0, 1]] [[1/2, 1/3]] =
        moeD.moeInferNoSkip xsD [[0, 1]] [[1/2, 1/3]] ∧
      ∀ t, t < xsD.length →
        (moeD.moe_infer xsD [[0, 1]] [[1/2, 1/3]]).getD t 0 =
          ((List.range 2).map (fun j =>
            smulQ ((([[1/2, 1/3]] : List (List ℚ)).getD t []).getD j 0)
              ((moeD.experts.getD
                ((([[0, 1]] : List (List ℕ)).getD t []).getD j 0)
                (fun _ => 0)) (xsD.getD t 0)))).sum) :=
  ⟨⟨by decide, by decide, by decide⟩,
    moe_infer_additive_terms moeD xsD [[0, 1]] [[1/2, 1/3]] 2
      (by decide) (by decide) (by decide)⟩

/-- Claim C5: for a bank with exactly one routed expert and `top_k = 1`,
`Moe::forward` is exactly the dense feed-forward of that single expert,
scaled per token by the token's (single) routing weight, plus the shared
expert's output when present. -/
theorem moe_forward_single_expert (m : Moe) (f : Vec → Vec) (xs : List Vec)
    (ids : List (List ℕ)) (w : List (List ℚ))
    (hexp : m.experts = [f])
    (hk : m.gate.top_k = 1)
    (hE : m.gate.n_routed_experts = 1)
    (hscore : ∀ v, (m.gate.score v).length = 1)
    (hg : m.gate.forward xs = .ok (ids, w)) :
    ∃ y, m.forward xs = .ok y ∧ y.length = xs.length ∧
      ∀ t, t < xs.length → y.getD t 0 =
        smulQ ((w.getD t []).getD 0 0) (f (xs.getD t 0)) +
          (match m.shared_experts with
           | some se => se (xs.getD t 0)
           | none => 0) := by
  have hg' : m.gate.forwardScores (xs.map m.gate.score) = .ok (ids, w) := hg
  obtain ⟨rows, hrows, hidseq⟩ := forwardScores_ok_inv hg'
  have hidslen : ids.length = xs.length := by
    rw [hidseq, List.length_map, exMap_ok_length hrows, List.length_map]
  have hids_all : ∀ row ∈ ids, row = [0] := by
    intro row hrow
    rw [hidseq] at hrow
    rcases List.mem_map.mp hrow with ⟨pr, hpr, rfl⟩
    obtain ⟨w1, idx1⟩ := pr
    obtain ⟨a, ha, hsel⟩ := exMap_ok_mem hrows _ hpr
    rcases List.mem_map.mp ha with ⟨v, _, rfl⟩
    obtain ⟨hl, _, hbd⟩ := selectRow_ok_shape hsel
    have hwidth : (m.gate.score v).length = m.gate.n_routed_experts := by
      rw [hscore, hE]
    have hbd' := hbd hwidth
    rw [hk] at hl
    cases hpr2 : idx1 with
    | nil => rw [hpr2] at hl; simp at hl
    | cons e tail =>
      rw [hpr2] at hl hbd'
      cases tail with
      | cons e2 t2 => simp at hl
      | nil =>
        have he := hbd' e (List.mem_cons_self _ _)
        rw [hscore] at he
        interval_cases e
        rfl
  have hkrow : ∀ row ∈ ids, row.length = 1 := by
    intro row hrow
    rw [hids_all row hrow]
    rfl
  have hrange : ∀ row ∈ ids, ∀ e ∈ row, e < m.experts.length := by
    intro row hrow e he
    rw [hids_all row hrow] at he
    rcases List.mem_singleton.mp he with rfl
    rw [hexp]
    exact Nat.zero_lt_one
  obtain ⟨hinferlen, _, hform⟩ :=
    moe_infer_additive_terms m xs ids w 1 hidslen hkrow hrange
  have hterm : ∀ t, t < xs.length → (m.moe_infer xs ids w).getD t 0 =
      smulQ ((w.getD t []).getD 0 0) (f (xs.getD t 0)) := by
    intro t ht
    rw [hform t ht]
    have htl : t < ids.length := by omega
    have hrmem : ids.getD t [] ∈ ids := by
      rw [List.getD_eq_getElem ids [] htl]
      exact List.getElem_mem htl
    have hr1 : List.range 1 = [0] := rfl
    rw [hids_all _ hrmem, hr1]
    simp only [List.map_cons, List.map_nil, List.sum_cons, List.sum_nil,
      add_zero, hexp]
    rfl
  cases hsh : m.shared_experts with
  | none =>
    refine ⟨m.moe_infer xs ids w, ?_, hinferlen, ?_⟩
    · simp only [Moe.forward, hg, exBind_ok_reduce, hsh]
    · intro t ht
      rw [hterm t ht]
      rw [add_zero]
  | some se =>
    refine ⟨List.zipWith (fun a b => a + b) (m.moe_infer xs ids w)
      (xs.map se), ?_, ?_, ?_⟩
    · simp only [Moe.forward, hg, exBind_ok_reduce, hsh]
    · rw [List.length_zipWith, hinferlen, List.length_map, Nat.min_self]
    · intro t ht
      have h1 : t < (m.moe_infer xs ids w).length := by omega
      have h2 : t < (xs.map se).length := by
        rw [List.length_map]
        exact ht
      have h3 : t < (List.zipWith (fun a b => a + b) (m.moe_infer xs ids w)
          (xs.map se)).length := by
        rw [List.length_zipWith, hinferlen, List.length_map, Nat.min_self]
        exact ht
      rw [List.getD_eq_getElem _ 0 h3, List.getElem_zipWith,
        List.getElem_map, ← List.getD_eq_getElem (m.moe_infer xs ids w) 0 h1,
        hterm t ht, ← List.getD_eq_getElem xs 0 ht]

/-- Single expert used by the one-expert-bank witness. -/
def fe1 : Vec → Vec := fun v => fun i => v i + 1

/-- One-routed-expert gate (`top_k = 1`, scale 1, no renormalization). -/
def gateE : MoeGate :=
  { score := fun _ => [3/4]
    cfg := { n_shared_experts := some 1, n_routed_experts := some 1,
             routed_scaling_factor := 1, topk_method := .Greedy,
             num_experts_per_tok := some 1, moe_layer_freq := 1,
             first_k_dense_replace := 0, norm_topk_prob := false,
             scoring_func := .Softmax, n_group := 1, topk_group := 1 }
    top_k := 1
    n_routed_experts := 1
    e_score_correction_bias := none }

/-- One-expert bank with a shared identity expert. -/
def moeE : Moe :=
  { experts := [fe1]
    shared_experts := some (fun v => v)
    gate := gateE }

theorem moe_forward_single_expert_witness :
    (moeE.experts = [fe1] ∧ moeE.gate.top_k = 1 ∧
      moeE.gate.n_routed_experts = 1 ∧
      (∀ v, (moeE.gate.score v).length = 1) ∧
      moeE.gate.forward xsD = .ok ([[0]], [[3/4]])) ∧
    (∃ y, moeE.forward xsD = .ok y ∧ y.length = xsD.length ∧
      ∀ t, t < xsD.length → y.getD t 0 =
        smulQ ((([[3/4]] : List (List ℚ)).getD t []).getD 0 0)
          (fe1 (xsD.getD t 0)) +
          (match moeE.shared_experts with
           | some se => se (xsD.getD t 0)
           | none => 0)) :=
  ⟨⟨rfl, rfl, rfl, fun _ => rfl, by with_unfolding_all rfl⟩,
    moe_forward_single_expert moeE fe1 xsD [[0]] [[3/4]] rfl rfl rfl
      (fun _ => rfl) (by with_unfolding_all rfl)⟩

/-- Paged-attention metadata: either the synthesized dummy
(`PagedAttentionInputMetadata::dummy`, used by the statistics-only pass)
or real serving metadata, identified abstractly. -/
inductive PagedMeta where
  | dummy
  | real (id : ℕ)
deriving DecidableEq, Repr

/-- The paged-attention collaborator (spec §6): an abstract
`forward(q, k, v, mask?, key/value caches?, metadata)` kernel. -/
structure PagedAttention where
  fwd : Vec → Vec → Vec → Option Vec → Option (Vec × Vec) → PagedMeta → Vec

/-- Modelled from the spec (KV-cache collaborator, §6): the per-layer
incremental cache is the sequence of `(keys, values)` pairs appended so
far; `append` grows it and returns the accumulated pairs. -/
abbrev KvCache : Type := List (Vec × Vec)

/-- Modelled from the spec: `append(new_keys, new_values)` returns
`(all_keys, all_values)` — here, the updated cache and its full
contents. -/
def KvCache.append (c : KvCache) (k v : Vec) :
    KvCache × List (Vec × Vec) :=
  (c ++ [(k, v)], c ++ [(k, v)])

/-- `Attention` (lines 143-154) restricted to what the dispatch claims
depend on.  Lines 253-309 (projections, rope split/rotation, zero-filled
reassembly of `q`/`k`) are position-independent tensor algebra producing
`(q, k, v)` from the hidden states and the sequence offsets; they are
abstracted as the `qkv` field.  Likewise `o_proj`, the SDPA kernel, the
value zero-padding / output narrowing of the paged path, and the two
output reshapes of lines 367-371 are abstract tensor maps. -/
structure Attention where
  qkv : Vec → List ℕ → Vec × Vec × Vec
  o_proj : Vec → Vec
  paged_attn : Option PagedAttention
  sdpaRun : Vec → List (Vec × Vec) → Option Vec → ℕ → Vec
  padV : Vec → Vec
  narrowV : Vec → Vec
  reshapeMasked : Vec → Vec
  reshapeUnmasked : Vec → Vec

/-- `Attention::forward` (lines 244-374): compute `(q, k, v)`, then
dispatch on the construction-time `paged_attn` handle.  With a paged
handle and metadata, run the paged kernel against the supplied key/value
caches (the incremental cache is untouched).  With a paged handle and no
metadata, synthesize dummy metadata, `assert!` that a mask was supplied
(a panic otherwise, lines 333-335), and run the paged kernel with no
caches.  With no paged handle, append to the incremental KV cache and run
SDPA over the accumulated sequence.  Lines 367-371 pick the output
reshape depending on mask presence; `o_proj` finishes. -/
def Attention.forward (a : Attention) (xs : Vec)
    (attention_mask : Option Vec) (seqlen_offsets : List ℕ)
    (kv_cache : KvCache) (metadata : Option ((Vec × Vec) × PagedMeta))
    (flash_params : ℕ) : Except Err (Vec × KvCache) :=
  let q := (a.qkv xs seqlen_offsets).1
  let k := (a.qkv xs seqlen_offsets).2.1
  let v := (a.qkv xs seqlen_offsets).2.2
  match a.paged_attn with
  | some paged_attn =>
    match metadata with
    | some ((key_cache, value_cache), input_metadata) =>
      let v2 := a.padV v
      let attn_out := a.narrowV
        (paged_attn.fwd q k v2 attention_mask
          (some (key_cache, value_cache)) input_metadata)
      let out := if attention_mask.isSome then a.reshapeMasked attn_out
        else a.reshapeUnmasked attn_out
      .ok (a.o_proj out, kv_cache)
    | none =>
      let input_metadata := PagedMeta.dummy
      if attention_mask.isSome then
        let v2 := a.padV v
        let attn_out := a.narrowV
          (paged_attn.fwd q k v2 attention_mask none input_metadata)
        let out := if attention_mask.isSome then a.reshapeMasked attn_out
          else a.reshapeUnmasked attn_out
        .ok (a.o_proj out, kv_cache)
      else .error .panicErr
  | none =>
    let res := kv_cache.append k v
    let attn_out := a.sdpaRun q res.2 attention_mask flash_params
    let out := if attention_mask.isSome then a.reshapeMasked attn_out
      else a.reshapeUnmasked attn_out
    .ok (a.o_proj out, res.1)

/-- Claim C7: on the paged backend with absent metadata, dummy metadata is
synthesized and an explicit mask is mandatory — no mask is a fatal
assertion (panic), while a supplied mask yields a normal paged call with
the dummy metadata and no key/value caches, leaving the incremental cache
untouched. -/
theorem attention_paged_dummy (a : Attention) (pa : PagedAttention)
    (xs : Vec) (offs : List ℕ) (cache : KvCache) (flash : ℕ)
    (hp : a.paged_attn = some pa) :
    (Attention.forward a xs none offs cache none flash =
      .error .panicErr) ∧
    (∀ mk : Vec, Attention.forward a xs (some mk) offs cache none flash =
      .ok (a.o_proj (a.reshapeMasked (a.narrowV
        (pa.fwd (a.qkv xs offs).1 (a.qkv xs offs).2.1
          (a.padV (a.qkv xs offs).2.2) (some mk) none PagedMeta.dummy))),
        cache)) := by
  constructor
  · simp [Attention.forward, hp]
  · intro mk
    simp [Attention.forward, hp]

/-- Claim C9: exactly one backend runs per call, fixed at construction:
with a paged handle the incremental KV cache is returned unchanged by
every successful call; without one, the paged path is unreachable and the
one cache mutation is a single `append` of the new keys and values, whose
result feeds SDPA. -/
theorem attention_backend_exclusive (a : Attention) (xs : Vec)
    (mask : Option Vec) (offs : List ℕ) (cache : KvCache)
    (metadata : Option ((Vec × Vec) × PagedMeta)) (flash : ℕ) :
    (a.paged_attn.isSome = true → ∀ out c2,
      Attention.forward a xs mask offs cache metadata flash =
        .ok (out, c2) → c2 = cache) ∧
    (a.paged_attn = none →
      Attention.forward a xs mask offs cache metadata flash =
        .ok (a.o_proj (if mask.isSome
          then a.reshapeMasked (a.sdpaRun (a.qkv xs offs).1
            (cache ++ [((a.qkv xs offs).2.1, (a.qkv xs offs).2.2)]) mask
            flash)
          else a.reshapeUnmasked (a.sdpaRun (a.qkv xs offs).1
            (cache ++ [((a.qkv xs offs).2.1, (a.qkv xs offs).2.2)]) mask
            flash)),
          cache ++ [((a.qkv xs offs).2.1, (a.qkv xs offs).2.2)])) := by
  constructor
  · intro hp out c2 h
    cases hpa : a.paged_attn with
    | none => rw [hpa] at hp; simp at hp
    | some pa =>
      simp only [Attention.forward, hpa] at h
      cases metadata with
      | some md =>
        obtain ⟨⟨kc, vc⟩, im⟩ := md
        simp only [Except.ok.injEq, Prod.mk.injEq] at h
        exact h.2.symm
      | none =>
        by_cases hm : mask.isSome = true
        · rw [if_pos hm] at h
          simp only [Except.ok.injEq, Prod.mk.injEq] at h
          exact h.2.symm
        · rw [if_neg hm] at h
          exact Except.noConfusion h
  · intro hpn
    simp [Attention.forward, hpn, KvCache.append]

/-- The constant-one hidden row used by the attention/decoder witnesses. -/
def vOne : Vec := fun _ => 1

/-- Identity-shaped paged-attention kernel for the witnesses. -/
def paP : PagedAttention := ⟨fun q _ _ _ _ _ => q⟩

/-- Cache-append (non-paged) attention instance for the witnesses, with
identity tensor maps. -/
def attnN : Attention :=
  { qkv := fun x _ => (x, x, x)
    o_proj := fun x => x
    paged_attn := none
    sdpaRun := fun q _ _ _ => q
    padV := fun x => x
    narrowV := fun x => x
    reshapeMasked := fun x => x
    reshapeUnmasked := fun x => x }

/-- Paged attention instance for the witnesses. -/
def attnP : Attention := { attnN with paged_attn := some paP }

theorem attention_paged_dummy_witness :
    attnP.paged_attn = some paP ∧
    ((Attention.forward attnP vOne none [] [] none 0 =
        .error .panicErr) ∧
      (∀ mk : Vec, Attention.forward attnP vOne (some mk) [] [] none 0 =
        .ok (attnP.o_proj (attnP.reshapeMasked (attnP.narrowV
          (paP.fwd (attnP.qkv vOne []).1 (attnP.qkv vOne []).2.1
            (attnP.padV (attnP.qkv vOne []).2.2) (some mk) none
            PagedMeta.dummy))), []))) :=
  ⟨rfl, attention_paged_dummy attnP paP vOne [] [] 0 rfl⟩

theorem attention_backend_exclusive_witness :
    (attnP.paged_attn.isSome = true ∧
      Attention.forward attnP vOne (some vOne) [] [] none 0 =
        .ok (vOne, ([] : KvCache)) ∧
      ([] : KvCache) = ([] : KvCache)) ∧
    (attnN.paged_attn = none ∧
      Attention.forward attnN vOne none [] [] none 0 =
        .ok (attnN.o_proj (if (none : Option Vec).isSome
          then attnN.reshapeMasked (attnN.sdpaRun (attnN.qkv vOne []).1
            ([] ++ [((attnN.qkv vOne []).2.1, (attnN.qkv vOne []).2.2)])
            none 0)
          else attnN.reshapeUnmasked (attnN.sdpaRun (attnN.qkv vOne []).1
            ([] ++ [((attnN.qkv vOne []).2.1, (attnN.qkv vOne []).2.2)])
            none 0)),
          [] ++ [((attnN.qkv vOne []).2.1, (attnN.qkv vOne []).2.2)])) :=
  ⟨⟨rfl, rfl,
    (attention_backend_exclusive attnP vOne (some vOne) [] [] none 0).1
      rfl vOne [] rfl⟩,
  ⟨rfl,
    (attention_backend_exclusive attnN vOne none [] [] none 0).2 rfl⟩⟩

/-- `MoeOrMlp` (lines 659-671): the per-layer feed-forward block, chosen
once at construction; `forward` dispatches on the stored variant only. -/
inductive MoeOrMlp where
  | moe (f : Vec → Except Err Vec)
  | mlp (f : Vec → Except Err Vec)

/-- `MoeOrMlp::forward` (lines 664-671). -/
def MoeOrMlp.forward : MoeOrMlp → Vec → Except Err Vec
  | .moe f, xs => f xs
  | .mlp f, xs => f xs

/-- `DecoderLayer` (lines 673-678); the two RmsNorms are abstract row
maps, attention and the feed-forward block as embedded above. -/
structure DecoderLayer where
  input_layernorm : Vec → Vec
  post_attention_layernorm : Vec → Vec
  attn : Attention
  moe_or_mlp : MoeOrMlp

/-- The `moe_or_mlp` selection of `DecoderLayer::new` (lines 709-729):
MoE exactly when routed experts are configured, the layer index is past
the dense prefix, and the index is a multiple of the MoE layer stride;
`moeF`/`mlpF` stand for the `Moe`/`Mlp` blocks the source constructs in
the two branches. -/
def DecoderLayer.mkMoeOrMlp (cfg : DeepSeekV3Config) (layer_idx : ℕ)
    (moeF mlpF : Vec → Except Err Vec) : MoeOrMlp :=
  if cfg.n_routed_experts.isSome ∧ cfg.first_k_dense_replace ≤ layer_idx ∧
      layer_idx % cfg.moe_layer_freq = 0
  then .moe moeF else .mlp mlpF

/-- `DecoderLayer::forward` (lines 739-765): pre-norm, attention,
residual add, pre-norm, feed-forward block, residual add. -/
def DecoderLayer.forward (l : DecoderLayer) (xs : Vec)
    (attention_mask : Option Vec) (seqlen_offsets : List ℕ)
    (kv_cache : KvCache) (metadata : Option ((Vec × Vec) × PagedMeta))
    (flash_params : ℕ) : Except Err (Vec × KvCache) := do
  let residual := xs
  let r ← l.attn.forward (l.input_layernorm xs) attention_mask
    seqlen_offsets kv_cache metadata flash_params
  let xs2 := r.1 + residual
  let residual2 := xs2
  let out ← l.moe_or_mlp.forward (l.post_attention_layernorm xs2)
  .ok (residual2 + out, r.2)

/-- Claim C8: `DecoderLayer::forward` computes exactly
`x1 = attn(norm1 x) + x` then `(moe_or_dense)(norm2 x1) + x1`, and the
MoE-vs-dense choice is fixed at construction by the layer-index condition
(routed experts present, index past the dense prefix, index a multiple of
the MoE stride) — `forward` only ever consults the stored variant, never
the configuration. -/
theorem decoder_layer_residual_wiring (l : DecoderLayer) (xs : Vec)
    (mask : Option Vec) (offs : List ℕ) (cache : KvCache)
    (metadata : Option ((Vec × Vec) × PagedMeta)) (flash : ℕ)
    (a1 : Vec) (c1 : KvCache) (f1 : Vec)
    (hattn : l.attn.forward (l.input_layernorm xs) mask offs cache metadata
      flash = .ok (a1, c1))
    (hffn : l.moe_or_mlp.forward
      (l.post_attention_layernorm (a1 + xs)) = .ok f1) :
    l.forward xs mask offs cache metadata flash =
      .ok (f1 + (a1 + xs), c1) ∧
    ∀ (cfg : DeepSeekV3Config) (i : ℕ) (mF lF : Vec → Except Err Vec),
      DecoderLayer.mkMoeOrMlp cfg i mF lF = .moe mF ↔
        (cfg.n_routed_experts.isSome ∧ cfg.first_k_dense_replace ≤ i ∧
          i % cfg.moe_layer_freq = 0) := by
  constructor
  · simp only [DecoderLayer.forward, hattn, exBind_ok_reduce, hffn]
    rw [add_comm (a1 + xs) f1]
  · intro cfg i mF lF
    constructor
    · intro h
      by_cases hc : (cfg.n_routed_experts.isSome = true ∧
          cfg.first_k_dense_replace ≤ i ∧ i % cfg.moe_layer_freq = 0)
      · exact hc
      · rw [DecoderLayer.mkMoeOrMlp, if_neg hc] at h
        exact MoeOrMlp.noConfusion h
    · intro hc
      rw [DecoderLayer.mkMoeOrMlp, if_pos hc]

/-- Dense decoder layer with identity norms, used by the witness. -/
def layerD : DecoderLayer :=
  { input_layernorm := fun x => x
    post_attention_layernorm := fun x => x
    attn := attnN
    moe_or_mlp := .mlp (fun x => .ok x) }

theorem decoder_layer_residual_wiring_witness :
    (layerD.attn.forward (layerD.input_layernorm vOne) none [] [] none 0 =
        .ok (vOne, [(vOne, vOne)]) ∧
      layerD.moe_or_mlp.forward
        (layerD.post_attention_layernorm (vOne + vOne)) =
        .ok (vOne + vOne)) ∧
    (layerD.forward vOne none [] [] none 0 =
        .ok ((vOne + vOne) + (vOne + vOne), [(vOne, vOne)]) ∧
      ∀ (cfg : DeepSeekV3Config) (i : ℕ) (mF lF : Vec → Except Err Vec),
        DecoderLayer.mkMoeOrMlp cfg i mF lF = .moe mF ↔
          (cfg.n_routed_experts.isSome ∧ cfg.first_k_dense_replace ≤ i ∧
            i % cfg.moe_layer_freq = 0)) :=
  ⟨⟨rfl, rfl⟩,
    decoder_layer_residual_wiring layerD vOne none [] [] none 0 vOne
      [(vOne, vOne)] (vOne + vOne) rfl rfl⟩

theorem exBind_error_reduce {α β : Type} (e : Err) (f : α → Except Err β) :
    ((Except.error e : Except Err α) >>= f) = .error e := rfl

/-- `MoeGate::new` (lines 441-461): fetch the centroid matrix (held
abstractly as the scoring map, supplied by the weight loader), fetch the
correction bias exactly when the policy is NoAuxTc, and read
`top_k` as `cfg.num_experts_per_tok.unwrap()` — a Rust panic when the
field is `None`, not a recoverable configuration error. -/
def MoeGate.new (cfg : DeepSeekV3Config) (score : Vec → List ℚ)
    (bias : List ℚ) (n_routed_experts : ℕ) : Except Err MoeGate :=
  let e_score_correction_bias :=
    match cfg.topk_method with
    | .NoAuxTc => some bias
    | _ => none
  match cfg.num_experts_per_tok with
  | none => .error .panicErr
  | some top_k =>
    .ok { score := score, cfg := cfg, top_k := top_k,
          n_routed_experts := n_routed_experts,
          e_score_correction_bias := e_score_correction_bias }

/-- `Moe::new` (lines 570-611): build the expert list and optional shared
expert (supplied abstractly, as the weight loader produces them), then
the gate; a gate panic propagates out of the whole MoE-layer
construction. -/
def Moe.new (cfg : DeepSeekV3Config) (experts : List (Vec → Vec))
    (shared_experts : Option (Vec → Vec)) (score : Vec → List ℚ)
    (bias : List ℚ) (n_routed_experts : ℕ) : Except Err Moe := do
  let gate ← MoeGate.new cfg score bias n_routed_experts
  .ok { experts := experts, shared_experts := shared_experts, gate := gate }

/-- Claim C10: `MoeGate::new` unconditionally unwraps
`cfg.num_experts_per_tok`: with the field `None`, gate construction — and
with it any MoE-layer construction — panics (`Err.panicErr`) rather than
returning a configuration error; and every successfully constructed gate
has `top_k` equal to the contained value, so `num_experts_per_tok` being
`Some` is an implicit construction-time precondition. -/
theorem moe_gate_new_unwrap_panics (cfg : DeepSeekV3Config)
    (score : Vec → List ℚ) (bias : List ℚ) (E : ℕ) :
    (cfg.num_experts_per_tok = none →
      MoeGate.new cfg score bias E = .error .panicErr ∧
      ∀ (experts : List (Vec → Vec)) (shared : Option (Vec → Vec)),
        Moe.new cfg experts shared score bias E = .error .panicErr) ∧
    (∀ g2 : MoeGate, MoeGate.new cfg score bias E = .ok g2 →
      cfg.num_experts_per_tok = some g2.top_k) := by
  constructor
  · intro hn
    have h1 : MoeGate.new cfg score bias E = .error .panicErr := by
      simp [MoeGate.new, hn]
    refine ⟨h1, fun experts shared => ?_⟩
    simp only [Moe.new, h1, exBind_error_reduce]
  · intro g2 h
    simp only [MoeGate.new] at h
    cases hn : cfg.num_experts_per_tok with
    | none =>
      rw [hn] at h
      exact Except.noConfusion h
    | some kk =>
      rw [hn] at h
      simp only [Except.ok.injEq] at h
      subst h
      rfl

/-- Configuration with `num_experts_per_tok = None` but routed experts
present — the panic case of C10. -/
def cfgNoK : DeepSeekV3Config :=
  { n_shared_experts := none, n_routed_experts := some 4,
    routed_scaling_factor := 1, topk_method := .Greedy,
    num_experts_per_tok := none, moe_layer_freq := 1,
    first_k_dense_replace := 0, norm_topk_prob := false,
    scoring_func := .Softmax, n_group := 1, topk_group := 1 }

/-- The gate that `MoeGate.new` produces for `gateA`'s configuration. -/
def gateFromA : MoeGate :=
  { score := fun _ => [1/2, 1/2], cfg := gateA.cfg, top_k := 2,
    n_routed_experts := 2, e_score_correction_bias := none }

theorem moe_gate_new_unwrap_panics_witness :
    (cfgNoK.num_experts_per_tok = none ∧
      MoeGate.new cfgNoK (fun _ => []) [] 4 = .error .panicErr ∧
      Moe.new cfgNoK [] none (fun _ => []) [] 4 = .error .panicErr) ∧
    (MoeGate.new gateA.cfg (fun _ => [1/2, 1/2]) [] 2 = .ok gateFromA ∧
      gateA.cfg.num_experts_per_tok = some gateFromA.top_k) :=
  ⟨⟨rfl,
    ((moe_gate_new_unwrap_panics cfgNoK (fun _ => []) [] 4).1 rfl).1,
    ((moe_gate_new_unwrap_panics cfgNoK (fun _ => []) [] 4).1 rfl).2 []
      none⟩,
  ⟨rfl,
    (moe_gate_new_unwrap_panics gateA.cfg (fun _ => [1/2, 1/2]) [] 2).2
      gateFromA rfl⟩⟩
